import Mathlib

/-!
Verification development for the StockTradebyZ reconciliation and
rate-limited ingestion engine.

Dates are represented as integer day numbers (days since 2024-01-01, so
`0` stands for 2024-01-01, `4` for 2024-01-05, and subtracting two day
numbers yields the `(d2 - d1).days` value used by the Python source).
Calendar sets (`expected`, `existing`) are `Finset ℤ`.
-/

/-! ### GapFinder: `MissingKlineFinder` (src/utils/missing_kline.py) -/

/-- Embedding of `MissingKlineFinder.find_missing_dates`:
`missing = sorted(expected - existing)` where `expected` is the trading
calendar for the interval and `existing` the stored dates. -/
def find_missing_dates (expected existing : Finset ℤ) : List ℤ :=
  (expected \ existing).sort (· ≤ ·)

/-- Embedding of the loop body of `MissingKlineFinder.missing_ranges`:
`start`/`prev` track the current run; for each further date `d`, the run
is extended exactly when `(d - prev).days == 1 and (d - start).days <
max_span_days`, otherwise the pending range `(start, prev)` is emitted
and a new run begins at `d`.  The final range is appended after the
loop. -/
def missing_ranges_go (maxSpan : ℤ) : ℤ → ℤ → List ℤ → List (ℤ × ℤ)
  | start, prev, [] => [(start, prev)]
  | start, prev, d :: ds =>
    if d - prev = 1 ∧ d - start < maxSpan then
      missing_ranges_go maxSpan start d ds
    else
      (start, prev) :: missing_ranges_go maxSpan d d ds

/-- Embedding of `MissingKlineFinder.missing_ranges`: the input dates are
sorted (`dates = sorted(missing_dates)`), an empty input yields `[]`,
otherwise the run-merging loop starts with `start = prev = dates[0]`.
The default `max_span_days` in the source is 365. -/
def missing_ranges (maxSpan : ℤ) (missing_dates : List ℤ) : List (ℤ × ℤ) :=
  match missing_dates.insertionSort (· ≤ ·) with
  | [] => []
  | d :: ds => missing_ranges_go maxSpan d d ds

/-- The inclusive list of day numbers `[s, s+1, ..., e]` covered by a
returned range `(s, e)`. -/
def intervalList (s e : ℤ) : List ℤ :=
  (List.range (e - s + 1).toNat).map (fun i : ℕ => s + (i : ℤ))

/-! ### RateLimiter: `TushareRateLimiter.wait_if_needed`
(src/utils/tushare_rate_limiter.py, duplicated verbatim in
src/utils/fetch_stock_kline.py)

Timestamps are rationals.  One acquire step takes the current deque of
recorded call timestamps and the wall-clock time `now = time.time()`;
`slack ≥ 0` models `time.sleep` possibly oversleeping past the requested
duration.  The result is `none` when the Python code would crash on
`self.calls[0]` with an empty deque (reachable only for `max_calls = 0`),
otherwise the new deque together with the timestamp recorded for this
call. -/

/-- First eviction loop: `while self.calls and self.calls[0] < now -
self.time_window: self.calls.popleft()`. -/
def rl_evict (W now : ℚ) (calls : List ℚ) : List ℚ :=
  calls.dropWhile (fun c => decide (c < now - W))

/-- Post-sleep eviction loop: `while self.calls and now - self.calls[0]
>= self.time_window: self.calls.popleft()` with the post-sleep clock `t`. -/
def rl_evict2 (W t : ℚ) (calls : List ℚ) : List ℚ :=
  calls.dropWhile (fun c => decide (W ≤ t - c))

/-- Body of `wait_if_needed` after the first eviction produced `calls1`:
if at least `max_calls` timestamps remain, sleep `time_window - (now -
calls[0]) + 1` (plus the oversleep `slack`), re-evict with the
post-sleep clock, and record the post-sleep time; otherwise record
`now` directly.  `none` is the `IndexError` Python raises on
`self.calls[0]` when the deque is empty (reachable only for
`max_calls = 0`). -/
def wait_if_needed_core (W : ℚ) (maxCalls : ℕ) (calls1 : List ℚ) (now slack : ℚ) :
    Option (List ℚ × ℚ) :=
  if maxCalls ≤ calls1.length then
    match calls1 with
    | [] => none
    | h :: _ =>
      some (rl_evict2 W (now + (W - (now - h) + 1) + slack) calls1
          ++ [now + (W - (now - h) + 1) + slack],
        now + (W - (now - h) + 1) + slack)
  else
    some (calls1 ++ [now], now)

/-- Embedding of `TushareRateLimiter.wait_if_needed`. -/
def wait_if_needed (W : ℚ) (maxCalls : ℕ) (calls : List ℚ) (now slack : ℚ) :
    Option (List ℚ × ℚ) :=
  wait_if_needed_core W maxCalls (rl_evict W now calls) now slack

/-- A sequence of `wait_if_needed` calls through one shared limiter:
each step `(delay, slack)` performs the next acquire at wall-clock time
`τ + delay` (the clock never runs backwards between calls) with
oversleep `slack`.  Returns the final deque and the list of recorded
call timestamps. -/
def run_wait_if_needed (W : ℚ) (maxCalls : ℕ) :
    List (ℚ × ℚ) → List ℚ → ℚ → Option (List ℚ × List ℚ)
  | [], calls, _ => some (calls, [])
  | (delay, slack) :: steps, calls, τ =>
    match wait_if_needed W maxCalls calls (τ + delay) slack with
    | none => none
    | some (calls', t) =>
      match run_wait_if_needed W maxCalls steps calls' t with
      | none => none
      | some (callsF, issued) => some (callsF, t :: issued)

/-- Number of call timestamps falling in the trailing window `(t - W, t]`. -/
def countWindow (W t : ℚ) (l : List ℚ) : ℕ :=
  l.countP (fun c => decide (t - W < c ∧ c ≤ t))

/-! ### BanDetector and provider-client error classification
(src/constants.py, src/utils/tushare_utils.py,
src/utils/fetch_stock_kline.py, src/utils/tushare_api.py) -/

/-- The fixed ban-pattern tuple `BAN_PATTERNS` from src/constants.py
(duplicated verbatim in src/utils/fetch_stock_kline.py). -/
def BAN_PATTERNS : List String :=
  ["访问频繁", "请稍后", "超过频率", "频繁访问",
   "too many requests", "429",
   "forbidden", "403",
   "max retries exceeded"]

/-- Character-list prefix test. -/
def startsWithL : List Char → List Char → Bool
  | [], _ => true
  | _ :: _, [] => false
  | p :: ps, c :: cs => p == c && startsWithL ps cs

/-- Character-list substring test, the semantics of Python `pat in msg`. -/
def containsL (pat : List Char) : List Char → Bool
  | [] => startsWithL pat []
  | c :: cs => startsWithL pat (c :: cs) || containsL pat cs

/-- Embedding of `looks_like_ip_ban`: lowercase the error text
(`str.lower()` — `Char.toLower` matches it on the ASCII and Chinese
characters occurring here) and test substring containment (`pat in
msg`) against each ban pattern. -/
def looks_like_ip_ban (msg : String) : Bool :=
  BAN_PATTERNS.any (fun pat => containsL pat.data (msg.data.map Char.toLower))

/-- Python exception values relevant to the fetch paths, identified by
their text: `rateLimitError msg cause` is `RateLimitError(msg)` raised
`from` the original error whose text is `cause`; `valueError` is the
`ValueError` raised by validation; `original` is any other exception
propagated unchanged. -/
inductive PyError where
  | original (msg : String)
  | valueError (msg : String)
  | rateLimitError (msg : String) (cause : String)
deriving DecidableEq

/-- The text `str(e)` of an exception, which is all the retry handler
inspects (`RateLimitError(str(e))` carries the original text). -/
def PyError.text : PyError → String
  | .original m => m
  | .valueError m => m
  | .rateLimitError m _ => m

/-- Embedding of `_get_kline_tushare` (src/utils/fetch_stock_kline.py).
The rate-limited `ts.pro_bar` call is abstracted by its outcome
`fetchRes` (error text, or the date column of the returned frame).  On
error, a ban-looking text raises `RateLimitError(str(e)) from e` and
anything else is re-raised unchanged; on success an empty frame is
returned empty, otherwise the frame is sorted by date. -/
def get_kline_tushare (fetchRes : Except String (List ℤ)) : Except PyError (List ℤ) :=
  match fetchRes with
  | .error e =>
    if looks_like_ip_ban e then .error (.rateLimitError e e)
    else .error (.original e)
  | .ok df =>
    if df = [] then .ok []
    else .ok (df.insertionSort (· ≤ ·))

/-- Keep-first deduplication, as `DataFrame.drop_duplicates` does. -/
def dedupKeepFirst {α : Type} [DecidableEq α] (l : List α) : List α :=
  l.foldl (fun acc x => if x ∈ acc then acc else acc ++ [x]) []

/-- Embedding of `TushareAPI.validate` (src/utils/tushare_api.py): an
empty frame raises `ValueError("数据为空！")`; duplicate `trade_date`
values are dropped keeping the first; a missing (`NaT`, here `none`)
date raises; a date in the future relative to `today` raises; otherwise
the deduplicated frame is returned. -/
def tushare_validate (today : ℤ) (df : List (Option ℤ)) :
    Except PyError (List (Option ℤ)) :=
  if df = [] then .error (.valueError "数据为空！")
  else
    if (dedupKeepFirst df).any (fun o => o.isNone) then
      .error (.valueError "存在缺失日期！")
    else if (dedupKeepFirst df).any (fun o => o.getD 0 > today) then
      .error (.valueError "数据包含未来日期，可能抓取错误！")
    else .ok (dedupKeepFirst df)

/-- Embedding of `TushareAPI.get_kline` (src/utils/tushare_api.py):
there is no try/except around the rate-limited `ts.pro_bar` call, so
any error from the remote call propagates unchanged — never classified,
never wrapped; on success the frame is validated (`validate` raises on
an empty frame) and sorted by `trade_date` (a validated frame holds no
`none` date, so sorting by the carried value is the pandas sort). -/
def TushareAPI_get_kline (today : ℤ) (fetchRes : Except String (List (Option ℤ))) :
    Except PyError (List (Option ℤ)) :=
  match fetchRes with
  | .error e => .error (.original e)
  | .ok df =>
    match tushare_validate today df with
    | .error err => .error err
    | .ok d => .ok (d.insertionSort (fun a b => a.getD 0 ≤ b.getD 0))

/-- Embedding of `validate` in src/utils/fetch_stock_kline.py: an empty
frame is returned as-is (no error); otherwise duplicate dates are
dropped keeping the first, the frame is sorted by date, and a date in
the future relative to `today` raises (the date column built by
`_get_kline_tushare` is non-null, so the missing-date check cannot
fire). -/
def fsk_validate (today : ℤ) (df : List ℤ) : Except PyError (List ℤ) :=
  if df = [] then .ok df
  else if ((dedupKeepFirst df).insertionSort (· ≤ ·)).any (fun x => x > today) then
    .error (.valueError "数据包含未来日期，可能抓取错误！")
  else .ok ((dedupKeepFirst df).insertionSort (· ≤ ·))

/-! ### IngestionWorker retry loop: `fetch_one_to_mysql`
(src/utils/fetch_stock_kline.py) with `cool_sleep`
(src/utils/tushare_utils.py) -/

/-- Embedding of `_cool_sleep` / `cool_sleep`: `sleep_s = max(1,
int(base_seconds * jitter))` with `jitter = random.uniform(0.9, 1.2)`
(the argument here; `int` truncates, which for these positive values is
the floor). -/
def cool_sleep_secs (base : ℤ) (jitter : ℚ) : ℤ :=
  max 1 ⌊(base : ℚ) * jitter⌋

/-- Abstract environment for one attempt of the `fetch_one_to_mysql`
retry loop: the outcome of the remote `ts.pro_bar` call (error text or
date column), whether `check_stock_info_exist` finds the stock row,
the outcome of `bulk_upsert` (`some msg` = raised), and the
`random.uniform(0.9, 1.2)` draw used if this attempt cools down. -/
structure AttemptEnv where
  fetch : Except String (List ℤ)
  stockExists : Bool
  persistErr : Option String
  jitter : ℚ

/-- Body of one `try:` block of `fetch_one_to_mysql`: fetch via
`_get_kline_tushare`, return early on an empty frame (`.ok none`),
validate, check the stock row exists (raising `ValueError` otherwise),
persist (`.ok (some n)` rows upserted), or propagate any raised
exception as its text (all the handler inspects). -/
def attempt_body (today : ℤ) (env : AttemptEnv) : Except String (Option ℕ) :=
  match get_kline_tushare env.fetch with
  | .error err => .error err.text
  | .ok df =>
    if df = [] then .ok none
    else
      match fsk_validate today df with
      | .error err => .error err.text
      | .ok d =>
        if env.stockExists then
          match env.persistErr with
          | some m => .error m
          | none => .ok (some d.length)
        else .error "数据库里找不到对应的股票基本信息"

/-- Result of a `fetch_one_to_mysql` call: how it ended.  The function
itself never raises — every attempt's exception is caught; exhausting
the loop runs the `for ... else` branch which only logs. -/
inductive FetchOutcome where
  | doneEmpty
  | donePersisted (rows : ℕ)
  | skippedAfter3
deriving DecidableEq

/-- Observable trace of a `fetch_one_to_mysql` call: attempts actually
made, the seconds slept after each failed attempt (cooldown or linear
backoff, in order), and the outcome. -/
structure FetchRun where
  attemptsMade : ℕ
  sleeps : List ℤ
  outcome : FetchOutcome
deriving DecidableEq

/-- The retry loop `for attempt in range(1, 4)` of `fetch_one_to_mysql`,
with `fuel` attempts remaining and `i` the current attempt number: an
empty frame returns immediately, a successful persist breaks, and a
failure sleeps — `_cool_sleep(COOLDOWN_SECS)` when `_looks_like_ip_ban`
classifies the exception as a ban, `15 * attempt` seconds otherwise —
then retries; when the loop exhausts, the `else:` branch logs and the
range is skipped. -/
def fetch_one_go (today : ℤ) (env : ℕ → AttemptEnv) : ℕ → ℕ → FetchRun
  | 0, _ => ⟨0, [], .skippedAfter3⟩
  | fuel + 1, i =>
    match attempt_body today (env i) with
    | .ok none => ⟨1, [], .doneEmpty⟩
    | .ok (some n) => ⟨1, [], .donePersisted n⟩
    | .error msg =>
      let s := if looks_like_ip_ban msg then cool_sleep_secs 600 (env i).jitter
               else 15 * (i : ℤ)
      let r := fetch_one_go today env fuel (i + 1)
      ⟨r.attemptsMade + 1, s :: r.sleeps, r.outcome⟩

/-- Embedding of `fetch_one_to_mysql`: three attempts, numbered 1..3. -/
def fetch_one_to_mysql (today : ℤ) (env : ℕ → AttemptEnv) : FetchRun :=
  fetch_one_go today env 3 1

/-! ### Store and ingestor: `Repository.bulk_upsert_from_dicts` and
`KlineIngestor.crawl_code` (src/database/repository.py,
src/database/core.py, src/utils/kline_ingestor.py) -/

/-- Committed store content relevant to the ingestion claims: the set
of `(code, date)` keys present in `stock_data`, and
`stocks.last_update_date` per code (the crawled codes all exist in
`stocks`, where they were enumerated from). -/
structure IngestState where
  data : Finset (String × ℤ)
  marks : String → Option ℤ

/-- The batches `rows[i : i + batch_size]` of the bulk-upsert loop,
with the list length as structural fuel.  `n = 0` cannot occur at the
call sites (`batch_size` is 500/1000; Python `range` with step 0 would
raise). -/
def chunksAux {α : Type} (n : ℕ) : ℕ → List α → List (List α)
  | _, [] => []
  | 0, _ :: _ => []
  | fuel + 1, x :: xs => (x :: xs).take n :: chunksAux n fuel ((x :: xs).drop n)

def chunksOf {α : Type} (n : ℕ) (l : List α) : List (List α) :=
  if n = 0 then [] else chunksAux n l.length l

/-- Embedding of the batch loop of `Repository.bulk_upsert_from_dicts`:
each batch is staged row by row with `commit=False` and committed at
the batch end; a `SQLAlchemyError` rolls the session back — discarding
the whole staged batch — logs, and re-raises, so earlier batches stay
committed and later batches are never attempted.  `failsAt i` says
whether batch `i` raises; the Bool result is `false` when the call
raised. -/
def bulkUpsertBatches (failsAt : ℕ → Bool) :
    ℕ → Finset (String × ℤ) → List (List (String × ℤ)) → Finset (String × ℤ) × Bool
  | _, data, [] => (data, true)
  | i, data, b :: rest =>
    if failsAt i then (data, false)
    else bulkUpsertBatches failsAt (i + 1) (data ∪ b.toFinset) rest

/-- Embedding of `Repository.bulk_upsert_from_dicts` restricted to the
committed key set. -/
def bulk_upsert_from_dicts (failsAt : ℕ → Bool) (batchSize : ℕ)
    (data : Finset (String × ℤ)) (rows : List (String × ℤ)) :
    Finset (String × ℤ) × Bool :=
  bulkUpsertBatches failsAt 0 data (chunksOf batchSize rows)

/-- Embedding of `KlineIngestor._update_last_date_for_code`: an
unconditional `UPDATE stocks SET last_update_date = :d WHERE code =
:code` — the new value is written whatever the current mark was. -/
def update_last_date_for_code (marks : String → Option ℤ) (code : String) (d : ℤ) :
    String → Option ℤ :=
  fun c => if c = code then some d else marks c

/-- Python `max(...)` over a non-empty sequence in iteration order (the
empty case, where `max()` would raise, is unreachable at the call
site). -/
def list_max : List ℤ → ℤ
  | [] => 0
  | d :: ds => ds.foldl max d

/-- Embedding of `KlineIngestor.crawl_code` for one code: fetch
(abstracted by its outcome `fetch`, carrying the dates of the returned
rows), return 0 rows on an empty frame, bulk-upsert the rows
(re-raising on failure, keeping the batches committed so far), then try
to set `stocks.last_update_date` to the maximum row date — any
exception of that step is swallowed (only logged), modelled by
`markFails` — and return the row count.  The result pairs the store
state left behind with the call's outcome (`.error ()` = an exception
propagated to the caller). -/
def crawl_code (fetch : Except Unit (List ℤ)) (failsAt : ℕ → Bool) (markFails : Bool)
    (code : String) (st : IngestState) : IngestState × Except Unit ℕ :=
  match fetch with
  | .error _ => (st, .error ())
  | .ok dates =>
    if dates = [] then (st, .ok 0)
    else
      match bulk_upsert_from_dicts failsAt 1000 st.data (dates.map (fun d => (code, d))) with
      | (data', false) => (⟨data', st.marks⟩, .error ())
      | (data', true) =>
        (⟨data', if markFails then st.marks
                 else update_last_date_for_code st.marks code (list_max dates)⟩,
         .ok (dates.map (fun d => (code, d))).length)

/-! ### Repository upsert: `Repository.upsert_from_dict` /
`bulk_upsert_from_dicts` at row level (src/database/repository.py)

A row dict is a list of `(column, value)` pairs with distinct columns
(attribute values abstracted as integers — the repository only moves
them, never computes with them).  An ORM row object is a total
assignment of columns to optional values (`none` = column never set /
NULL).  The table is the committed list of rows keyed by the
`StockData` composite primary key `(code, date)` read off the dict by
`_pk_from_dict` (`values.get(col)`). -/

/-- Row dicts: `(column, value)` pairs. -/
abbrev Dict : Type := List (String × ℤ)

/-- ORM row objects: column → optional value. -/
abbrev Row : Type := String → Option ℤ

/-- The composite primary key `(code, date)` as read by
`_pk_from_dict`: `values.get` of each primary-key column. -/
abbrev PK : Type := Option ℤ × Option ℤ

/-- Python `values.get(col)`: first binding of the column, if any. -/
def dict_get (d : Dict) (k : String) : Option ℤ :=
  (List.find? (fun kv => kv.1 == k) d).map (·.2)

/-- Embedding of `Repository._pk_from_dict` for the `StockData` model
(primary-key columns `code`, `date`). -/
def pk_from_dict (d : Dict) : PK :=
  (dict_get d "code", dict_get d "date")

/-- A freshly constructed model object before any attribute is set. -/
def emptyRow : Row := fun _ => none

/-- `for k, v in values.items(): setattr(obj, k, v)` (also how
`self.model(**values)` populates a fresh object). -/
def setFields (r : Row) (d : Dict) : Row :=
  d.foldl (fun r kv => fun k => if k = kv.1 then some kv.2 else r k) r

/-- The committed table: rows with their primary keys, in insertion
order. -/
abbrev Store : Type := List (PK × Row)

def storeKeys (s : Store) : List PK := s.map (·.1)

/-- `session.get(self.model, pk)`: the row with this primary key, if
present (keys are unique in the table). -/
def storeLookup (s : Store) (pk : PK) : Option Row :=
  (List.find? (fun e => decide (e.1 = pk)) s).map (·.2)

/-- In-place update of the row at `pk` (the ORM mutates the fetched
persistent object; the key columns are rewritten with their own
values). -/
def storeUpdate : Store → PK → Row → Store
  | [], _, _ => []
  | e :: t, pk, r => if e.1 = pk then (pk, r) :: t else e :: storeUpdate t pk r

/-- Embedding of `Repository.upsert_from_dict` (success path): SELECT
by primary key; if absent, add a fresh object populated from the dict;
otherwise set each given attribute on the fetched object. -/
def upsert_from_dict (s : Store) (d : Dict) : Store :=
  match storeLookup s (pk_from_dict d) with
  | none => s ++ [(pk_from_dict d, setFields emptyRow d)]
  | some obj => storeUpdate s (pk_from_dict d) (setFields obj d)

/-- Embedding of `Repository.bulk_upsert_from_dicts` (all batches
succeeding) at row level: each row dict is upserted in order; with
every commit succeeding, the batch boundaries do not affect the final
committed state. -/
def bulk_upsert_rows (s : Store) (rows : List Dict) : Store :=
  rows.foldl upsert_from_dict s

/-- Lookup effect of one upsert, as an operator on the optional row. -/
def upsert_effect (k : PK) (acc : Option Row) (d : Dict) : Option Row :=
  if pk_from_dict d = k then some (setFields (acc.getD emptyRow) d) else acc

/-- The value of the LAST binding of a column in a dict, if any
(earlier bindings are overwritten by `setattr` in order). -/
def dict_last_value : Dict → String → Option ℤ
  | [], _ => none
  | kv :: rest, k =>
    match dict_last_value rest k with
    | some v => some v
    | none => if kv.1 = k then some kv.2 else none

/-! ### Theorems -/

/-- Membership in `intervalList` is the inclusive interval condition. -/
theorem mem_intervalList {s e x : ℤ} : x ∈ intervalList s e ↔ s ≤ x ∧ x ≤ e := by
  unfold intervalList
  simp only [List.mem_map, List.mem_range]
  constructor
  · rintro ⟨i, hi, rfl⟩
    constructor
    · omega
    · omega
  · rintro ⟨h1, h2⟩
    exact ⟨(x - s).toNat, by omega, by omega⟩

theorem intervalList_ne_nil {s e : ℤ} (h : s ≤ e) : intervalList s e ≠ [] := by
  intro hc
  have : s ∈ intervalList s e := mem_intervalList.2 ⟨le_refl s, h⟩
  simp [hc] at this

/-- Every range emitted by the run-merging loop has ordered inclusive
bounds, and its first bound is at least the current run start. -/
theorem missing_ranges_go_bounds (maxSpan : ℤ) :
    ∀ (ds : List ℤ) (start prev : ℤ), List.Chain' (· < ·) (prev :: ds) → start ≤ prev →
      ∀ p ∈ missing_ranges_go maxSpan start prev ds, start ≤ p.1 ∧ p.1 ≤ p.2
  | [], start, prev, _, hsp, p, hp => by
    simp only [missing_ranges_go, List.mem_singleton] at hp
    subst hp; exact ⟨le_refl _, hsp⟩
  | d :: ds, start, prev, hch, hsp, p, hp => by
    have hpd : prev < d := (List.chain'_cons.1 hch).1
    have hch' : List.Chain' (· < ·) (d :: ds) := (List.chain'_cons.1 hch).2
    simp only [missing_ranges_go] at hp
    split at hp
    · rename_i hcond
      exact missing_ranges_go_bounds maxSpan ds start d hch' (by omega) p hp
    · rcases List.mem_cons.1 hp with h | h
      · subst h; exact ⟨le_refl _, hsp⟩
      · have := missing_ranges_go_bounds maxSpan ds d d hch' (le_refl d) p h
        omega

/-- Every range emitted by the run-merging loop spans strictly fewer
than `maxSpan` days. -/
theorem missing_ranges_go_span (maxSpan : ℤ) (hpos : 0 < maxSpan) :
    ∀ (ds : List ℤ) (start prev : ℤ), prev - start < maxSpan →
      ∀ p ∈ missing_ranges_go maxSpan start prev ds, p.2 - p.1 < maxSpan
  | [], start, prev, hsp, p, hp => by
    simp only [missing_ranges_go, List.mem_singleton] at hp
    subst hp; exact hsp
  | d :: ds, start, prev, hsp, p, hp => by
    simp only [missing_ranges_go] at hp
    split at hp
    · rename_i hcond
      exact missing_ranges_go_span maxSpan hpos ds start d (by omega) p hp
    · rcases List.mem_cons.1 hp with h | h
      · subst h; exact hsp
      · exact missing_ranges_go_span maxSpan hpos ds d d (by omega) p h

/-- Coverage of the run-merging loop: a day is covered by some emitted
range iff it lies in the current run interval `[start, prev]` or is one
of the remaining (strictly ascending) dates. -/
theorem missing_ranges_go_cover (maxSpan : ℤ) :
    ∀ (ds : List ℤ) (start prev : ℤ), List.Chain' (· < ·) (prev :: ds) → start ≤ prev →
      ∀ x : ℤ, (∃ p ∈ missing_ranges_go maxSpan start prev ds, p.1 ≤ x ∧ x ≤ p.2) ↔
        ((start ≤ x ∧ x ≤ prev) ∨ x ∈ ds)
  | [], start, prev, _, _, x => by
    simp [missing_ranges_go]
  | d :: ds, start, prev, hch, hsp, x => by
    have hpd : prev < d := (List.chain'_cons.1 hch).1
    have hch' : List.Chain' (· < ·) (d :: ds) := (List.chain'_cons.1 hch).2
    simp only [missing_ranges_go]
    split
    · rename_i hcond
      have hd : d = prev + 1 := by omega
      rw [missing_ranges_go_cover maxSpan ds start d hch' (by omega) x]
      constructor
      · rintro (⟨h1, h2⟩ | h)
        · rcases lt_or_eq_of_le h2 with h2' | h2'
          · exact Or.inl ⟨h1, by omega⟩
          · exact Or.inr (by simp [h2', hd])
        · exact Or.inr (List.mem_cons_of_mem _ h)
      · rintro (⟨h1, h2⟩ | h)
        · exact Or.inl ⟨h1, by omega⟩
        · rcases List.mem_cons.1 h with h' | h'
          · exact Or.inl ⟨by omega, by omega⟩
          · exact Or.inr h'
    · rename_i hcond
      constructor
      · rintro ⟨p, hp, hx1, hx2⟩
        rcases List.mem_cons.1 hp with h | h
        · subst h; exact Or.inl ⟨hx1, hx2⟩
        · have := (missing_ranges_go_cover maxSpan ds d d hch' (le_refl d) x).1 ⟨p, h, hx1, hx2⟩
          rcases this with ⟨h1, h2⟩ | h'
          · have : x = d := by omega
            exact Or.inr (by simp [this])
          · exact Or.inr (List.mem_cons_of_mem _ h')
      · rintro (⟨h1, h2⟩ | h)
        · exact ⟨(start, prev), List.mem_cons_self _ _, h1, h2⟩
        · rcases List.mem_cons.1 h with h' | h'
          · subst h'
            obtain ⟨p, hp, hx⟩ := (missing_ranges_go_cover maxSpan ds x x hch' (le_refl x) x).2
              (Or.inl ⟨le_refl x, le_refl x⟩)
            exact ⟨p, List.mem_cons_of_mem _ hp, hx⟩
          · obtain ⟨p, hp, hx⟩ := (missing_ranges_go_cover maxSpan ds d d hch' (le_refl d) x).2
              (Or.inr h')
            exact ⟨p, List.mem_cons_of_mem _ hp, hx⟩

theorem intervalList_self (d : ℤ) : intervalList d d = [d] := by
  unfold intervalList
  norm_num
  simp [List.range_succ]

theorem intervalList_append_last {s e : ℤ} (h : s ≤ e + 1) :
    intervalList s (e + 1) = intervalList s e ++ [e + 1] := by
  unfold intervalList
  have h1 : (e + 1 - s + 1).toNat = (e - s + 1).toNat + 1 := by omega
  rw [h1, List.range_succ, List.map_append]
  simp only [List.map_cons, List.map_nil]
  congr 2
  omega

/-- The first emitted range of the run-merging loop always begins at the
current run start. -/
theorem missing_ranges_go_head (maxSpan : ℤ) :
    ∀ (ds : List ℤ) (start prev : ℤ),
      ∃ e rest, missing_ranges_go maxSpan start prev ds = (start, e) :: rest
  | [], start, prev => ⟨prev, [], rfl⟩
  | d :: ds, start, prev => by
    simp only [missing_ranges_go]
    split
    · exact missing_ranges_go_head maxSpan ds start d
    · exact ⟨prev, _, rfl⟩

/-- Run decomposition of the run-merging loop: concatenating the
inclusive day intervals of the emitted ranges reproduces exactly the
scanned dates (current run `[start..prev]` followed by the remaining
dates), and each consecutive pair of emitted ranges violates the merge
condition `(d - prev).days == 1 and (d - start).days < max_span_days`,
i.e. a new range is started exactly at those points. -/
theorem missing_ranges_go_runs (maxSpan : ℤ) (hpos : 0 < maxSpan) :
    ∀ (ds : List ℤ) (start prev : ℤ), List.Chain' (· < ·) (prev :: ds) →
      start ≤ prev → prev - start < maxSpan →
      ((missing_ranges_go maxSpan start prev ds).map (fun p => intervalList p.1 p.2)).flatten
          = intervalList start prev ++ ds
        ∧ List.Chain' (fun p q : ℤ × ℤ => ¬(q.1 - p.2 = 1 ∧ q.1 - p.1 < maxSpan))
            (missing_ranges_go maxSpan start prev ds)
  | [], start, prev, _, _, _ => by
    simp [missing_ranges_go]
  | d :: ds, start, prev, hch, hsp, hspan => by
    have hpd : prev < d := (List.chain'_cons.1 hch).1
    have hch' : List.Chain' (· < ·) (d :: ds) := (List.chain'_cons.1 hch).2
    simp only [missing_ranges_go]
    split
    · rename_i hcond
      obtain ⟨hjoin, hchain⟩ :=
        missing_ranges_go_runs maxSpan hpos ds start d hch' (by omega) (by omega)
      refine ⟨?_, hchain⟩
      rw [hjoin]
      have hd : d = prev + 1 := by omega
      subst hd
      rw [intervalList_append_last (by omega)]
      simp
    · rename_i hcond
      obtain ⟨hjoin, hchain⟩ :=
        missing_ranges_go_runs maxSpan hpos ds d d hch' (le_refl d) (by omega)
      obtain ⟨e0, rest, heq⟩ := missing_ranges_go_head maxSpan ds d d
      constructor
      · simp only [List.map_cons, List.flatten_cons]
        rw [hjoin, intervalList_self]
        simp
      · rw [heq] at hchain ⊢
        refine List.chain'_cons.2 ⟨?_, hchain⟩
        simpa using hcond

/-- Ordering of the run-merging loop output: emitted ranges are sorted
ascending and pairwise disjoint (each range ends strictly before the
next one starts). -/
theorem missing_ranges_go_sorted (maxSpan : ℤ) :
    ∀ (ds : List ℤ) (start prev : ℤ), List.Chain' (· < ·) (prev :: ds) → start ≤ prev →
      List.Pairwise (fun p q => p.2 < q.1) (missing_ranges_go maxSpan start prev ds)
  | [], start, prev, _, _ => by simp [missing_ranges_go]
  | d :: ds, start, prev, hch, hsp => by
    have hpd : prev < d := (List.chain'_cons.1 hch).1
    have hch' : List.Chain' (· < ·) (d :: ds) := (List.chain'_cons.1 hch).2
    simp only [missing_ranges_go]
    split
    · exact missing_ranges_go_sorted maxSpan ds start d hch' (by omega)
    · refine List.pairwise_cons.2 ⟨?_, missing_ranges_go_sorted maxSpan ds d d hch' (le_refl d)⟩
      intro q hq
      have := missing_ranges_go_bounds maxSpan ds d d hch' (le_refl d) q hq
      omega

/-- Packaged correctness of `missing_ranges` on an input that is already
strictly sorted (as `sorted(expected - existing)` always is): the ranges
tile the input into inclusive runs, consecutive ranges violate the merge
condition, every range is well-formed with span below `maxSpan`, a day
is covered by some range iff it is an input date, and the ranges are
sorted ascending and pairwise disjoint. -/
theorem missing_ranges_sorted_spec (maxSpan : ℤ) (hpos : 0 < maxSpan) (ds : List ℤ)
    (hs : List.Sorted (· < ·) ds) :
    ((missing_ranges maxSpan ds).map (fun p => intervalList p.1 p.2)).flatten = ds
    ∧ List.Chain' (fun p q : ℤ × ℤ => ¬(q.1 - p.2 = 1 ∧ q.1 - p.1 < maxSpan))
        (missing_ranges maxSpan ds)
    ∧ (∀ p ∈ missing_ranges maxSpan ds, p.1 ≤ p.2 ∧ p.2 - p.1 < maxSpan)
    ∧ (∀ x : ℤ, (∃ p ∈ missing_ranges maxSpan ds, p.1 ≤ x ∧ x ≤ p.2) ↔ x ∈ ds)
    ∧ List.Pairwise (fun p q : ℤ × ℤ => p.2 < q.1) (missing_ranges maxSpan ds) := by
  have hle : List.Sorted (· ≤ ·) ds := hs.imp (fun h => le_of_lt h)
  have hsort : ds.insertionSort (· ≤ ·) = ds := hle.insertionSort_eq
  cases ds with
  | nil =>
    simp [missing_ranges]
  | cons d ds' =>
    have hch : List.Chain' (· < ·) (d :: ds') := hs.chain'
    have hrw : missing_ranges maxSpan (d :: ds') = missing_ranges_go maxSpan d d ds' := by
      simp only [missing_ranges, hsort]
    rw [hrw]
    obtain ⟨hjoin, hchain⟩ :=
      missing_ranges_go_runs maxSpan hpos ds' d d hch (le_refl d) (by omega)
    refine ⟨?_, hchain, ?_, ?_, ?_⟩
    · rw [hjoin, intervalList_self]; rfl
    · intro p hp
      exact ⟨(missing_ranges_go_bounds maxSpan ds' d d hch (le_refl d) p hp).2,
        missing_ranges_go_span maxSpan hpos ds' d d (by omega) p hp⟩
    · intro x
      rw [missing_ranges_go_cover maxSpan ds' d d hch (le_refl d) x]
      simp only [List.mem_cons]
      constructor
      · rintro (⟨h1, h2⟩ | h)
        · exact Or.inl (by omega)
        · exact Or.inr h
      · rintro (rfl | h)
        · exact Or.inl ⟨le_refl x, le_refl x⟩
        · exact Or.inr h
    · exact missing_ranges_go_sorted maxSpan ds' d d hch (le_refl d)

/-- Computing `Finset.sort` on concrete inputs: a sorted duplicate-free
list whose elements are exactly the finset is the sort result. -/
theorem finset_sort_eval {s : Finset ℤ} {l : List ℤ} (h1 : List.Sorted (· ≤ ·) l)
    (h2 : l.Nodup) (h3 : l.toFinset = s) : s.sort (· ≤ ·) = l :=
  List.eq_of_perm_of_sorted
    (List.perm_of_nodup_nodup_toFinset_eq (Finset.sort_nodup _ s) h2
      (by rw [Finset.sort_toFinset, h3]))
    (Finset.sort_sorted _ s) h1

theorem find_missing_dates_eval {expected existing : Finset ℤ} {l : List ℤ}
    (h1 : List.Sorted (· ≤ ·) l) (h2 : l.Nodup)
    (h3 : l.toFinset = expected \ existing) :
    find_missing_dates expected existing = l :=
  finset_sort_eval h1 h2 h3

/-- Sorting first does not change `missing_ranges` (it sorts internally). -/
theorem missing_ranges_insertionSort (maxSpan : ℤ) (ds : List ℤ) :
    missing_ranges maxSpan (ds.insertionSort (· ≤ ·)) = missing_ranges maxSpan ds := by
  simp only [missing_ranges]
  rw [List.Sorted.insertionSort_eq (List.sorted_insertionSort _ ds)]

/-- C1, counterexample: with `expected = {0}` (day 0 is the only calendar
day) and `existing = {1}` (the store holds a stray row outside the
calendar), `existingDates ∪ missingDates = {0, 1} ≠ {0} = expectedDates`,
so the claimed identity `existingDates ∪ missingDates == expectedDates`
fails as universally stated over store contents. -/
theorem c1_union_counterexample :
    ¬ (({1} : Finset ℤ) ∪ (find_missing_dates {0} {1}).toFinset = {0}) := by
  have h : find_missing_dates {0} {1} = [0] :=
    find_missing_dates_eval (by decide) (by decide) (by decide)
  rw [h]
  decide

/-- C1 (amended): provided the stored dates are a subset of the expected
calendar dates for the interval (the spec's own store invariant, which
the union identity forces), `find_missing_dates` returns exactly
`expected \ existing`, hence `existing ∩ missing = ∅` and
`existing ∪ missing = expected`; and the `missing_ranges` built from the
missing dates (default `max_span_days = 365`) are well-formed, pairwise
disjoint, sorted ascending, and the days they cover together with the
existing dates are exactly the full expected calendar set. -/
theorem c1_gap_completeness (expected existing : Finset ℤ) (hsub : existing ⊆ expected) :
    (find_missing_dates expected existing).toFinset = expected \ existing
    ∧ existing ∩ (find_missing_dates expected existing).toFinset = ∅
    ∧ existing ∪ (find_missing_dates expected existing).toFinset = expected
    ∧ (∀ p ∈ missing_ranges 365 (find_missing_dates expected existing), p.1 ≤ p.2)
    ∧ List.Pairwise (fun p q : ℤ × ℤ => p.2 < q.1)
        (missing_ranges 365 (find_missing_dates expected existing))
    ∧ (∀ x : ℤ,
        ((∃ p ∈ missing_ranges 365 (find_missing_dates expected existing),
            p.1 ≤ x ∧ x ≤ p.2) ∨ x ∈ existing) ↔ x ∈ expected) := by
  have htf : (find_missing_dates expected existing).toFinset = expected \ existing :=
    Finset.sort_toFinset _ _
  have hs : List.Sorted (· < ·) (find_missing_dates expected existing) :=
    Finset.sort_sorted_lt _
  obtain ⟨hflat, hchain, hforms, hcover, hpair⟩ :=
    missing_ranges_sorted_spec 365 (by norm_num) _ hs
  refine ⟨htf, ?_, ?_, fun p hp => (hforms p hp).1, hpair, ?_⟩
  · rw [htf]; exact Finset.inter_sdiff_self _ _
  · rw [htf]; exact Finset.union_sdiff_of_subset hsub
  · intro x
    rw [hcover x]
    unfold find_missing_dates
    rw [Finset.mem_sort, Finset.mem_sdiff]
    constructor
    · rintro (⟨hx, _⟩ | he)
      · exact hx
      · exact hsub he
    · intro hx
      by_cases he : x ∈ existing
      · exact Or.inr he
      · exact Or.inl ⟨hx, he⟩

/-- Witness for `c1_gap_completeness` at the concrete calendar
`{0,...,4}` with stored dates `{1, 3}`. -/
theorem c1_gap_completeness_witness :
    (({1, 3} : Finset ℤ) ⊆ {0, 1, 2, 3, 4})
    ∧ ((find_missing_dates {0, 1, 2, 3, 4} {1, 3}).toFinset = {0, 1, 2, 3, 4} \ {1, 3}
    ∧ ({1, 3} : Finset ℤ) ∩ (find_missing_dates {0, 1, 2, 3, 4} {1, 3}).toFinset = ∅
    ∧ ({1, 3} : Finset ℤ) ∪ (find_missing_dates {0, 1, 2, 3, 4} {1, 3}).toFinset
        = {0, 1, 2, 3, 4}
    ∧ (∀ p ∈ missing_ranges 365 (find_missing_dates {0, 1, 2, 3, 4} {1, 3}), p.1 ≤ p.2)
    ∧ List.Pairwise (fun p q : ℤ × ℤ => p.2 < q.1)
        (missing_ranges 365 (find_missing_dates {0, 1, 2, 3, 4} {1, 3}))
    ∧ (∀ x : ℤ,
        ((∃ p ∈ missing_ranges 365 (find_missing_dates {0, 1, 2, 3, 4} {1, 3}),
            p.1 ≤ x ∧ x ≤ p.2) ∨ x ∈ ({1, 3} : Finset ℤ)) ↔ x ∈ ({0, 1, 2, 3, 4} : Finset ℤ))) :=
  ⟨by decide, c1_gap_completeness {0, 1, 2, 3, 4} {1, 3} (by decide)⟩

/-- C8: on a duplicate-free input (missing dates always come from a set
difference), `missing_ranges` scans the dates ascending and starts a
new range exactly when the next date is not one day after the previous
date of the run or the run span already reaches `max_span_days`: the
emitted ranges are inclusive interval runs that tile the sorted input,
consecutive emitted ranges violate the merge condition, every range is
well-formed with span below `maxSpan`, a day is covered iff it is an
input date, ranges are sorted ascending and pairwise disjoint, and on
the concrete example (calendar 2024-01-01..2024-01-05 encoded as days
0..4, stored dates {1, 3}) the result is the three singleton ranges. -/
theorem c8_missing_ranges_runs (maxSpan : ℤ) (ds : List ℤ) (hpos : 0 < maxSpan)
    (hnd : ds.Nodup) :
    ((missing_ranges maxSpan ds).map (fun p => intervalList p.1 p.2)).flatten
        = ds.insertionSort (· ≤ ·)
    ∧ List.Chain' (fun p q : ℤ × ℤ => ¬(q.1 - p.2 = 1 ∧ q.1 - p.1 < maxSpan))
        (missing_ranges maxSpan ds)
    ∧ (∀ p ∈ missing_ranges maxSpan ds, p.1 ≤ p.2 ∧ p.2 - p.1 < maxSpan)
    ∧ (∀ x : ℤ, (∃ p ∈ missing_ranges maxSpan ds, p.1 ≤ x ∧ x ≤ p.2) ↔ x ∈ ds)
    ∧ List.Pairwise (fun p q : ℤ × ℤ => p.2 < q.1) (missing_ranges maxSpan ds)
    ∧ missing_ranges 365 (find_missing_dates {0, 1, 2, 3, 4} {1, 3})
        = [(0, 0), (2, 2), (4, 4)] := by
  have hperm := List.perm_insertionSort (· ≤ ·) ds
  have hnd' : (ds.insertionSort (· ≤ ·)).Nodup := hperm.nodup_iff.2 hnd
  have hsle : List.Sorted (· ≤ ·) (ds.insertionSort (· ≤ ·)) :=
    List.sorted_insertionSort _ ds
  have hslt : List.Sorted (· < ·) (ds.insertionSort (· ≤ ·)) := hsle.lt_of_le hnd'
  have heq := missing_ranges_insertionSort maxSpan ds
  obtain ⟨hflat, hchain, hforms, hcover, hpair⟩ :=
    missing_ranges_sorted_spec maxSpan hpos _ hslt
  rw [heq] at hflat hchain hforms hcover hpair
  refine ⟨hflat, hchain, hforms, ?_, hpair, ?_⟩
  · intro x
    rw [hcover x, List.mem_insertionSort]
  · have h : find_missing_dates {0, 1, 2, 3, 4} {1, 3} = [0, 2, 4] :=
      find_missing_dates_eval (by decide) (by decide) (by decide)
    rw [h]
    decide

/-- Witness for `c8_missing_ranges_runs` at `maxSpan = 365` and the
concrete missing-date list `[0, 2, 4]`. -/
theorem c8_missing_ranges_runs_witness :
    ((0 : ℤ) < 365 ∧ ([0, 2, 4] : List ℤ).Nodup)
    ∧ (((missing_ranges 365 [0, 2, 4]).map (fun p => intervalList p.1 p.2)).flatten
        = ([0, 2, 4] : List ℤ).insertionSort (· ≤ ·)
    ∧ List.Chain' (fun p q : ℤ × ℤ => ¬(q.1 - p.2 = 1 ∧ q.1 - p.1 < 365))
        (missing_ranges 365 [0, 2, 4])
    ∧ (∀ p ∈ missing_ranges 365 [0, 2, 4], p.1 ≤ p.2 ∧ p.2 - p.1 < 365)
    ∧ (∀ x : ℤ, (∃ p ∈ missing_ranges 365 [0, 2, 4], p.1 ≤ x ∧ x ≤ p.2)
        ↔ x ∈ ([0, 2, 4] : List ℤ))
    ∧ List.Pairwise (fun p q : ℤ × ℤ => p.2 < q.1) (missing_ranges 365 [0, 2, 4])
    ∧ missing_ranges 365 (find_missing_dates {0, 1, 2, 3, 4} {1, 3})
        = [(0, 0), (2, 2), (4, 4)]) :=
  ⟨⟨by norm_num, by decide⟩, c8_missing_ranges_runs 365 [0, 2, 4] (by norm_num) (by decide)⟩

theorem countWindow_append (W t : ℚ) (l1 l2 : List ℚ) :
    countWindow W t (l1 ++ l2) = countWindow W t l1 + countWindow W t l2 :=
  List.countP_append _ _ _

theorem countWindow_le_length (W t : ℚ) (l : List ℚ) :
    countWindow W t l ≤ l.length :=
  List.countP_le_length _

theorem countWindow_eq_zero_of_le (W t : ℚ) (l : List ℚ)
    (h : ∀ c ∈ l, c ≤ t - W) : countWindow W t l = 0 := by
  apply List.countP_eq_zero.2
  intro c hc
  simp only [decide_eq_true_eq, not_and]
  intro hcontra
  exact absurd (h c hc) (by linarith)

/-- One-step preservation for `wait_if_needed`: when `max_calls ≥ 1` the
call never fails, the recorded timestamp is no earlier than `now`, the
deque keeps at most `max_calls` entries all in the past, every timestamp
ever evicted is at least one window older than the recorded time, and
the trailing-window bound on all calls ever issued is preserved. -/
theorem wait_if_needed_spec (W : ℚ) (maxCalls : ℕ) (hmax : 1 ≤ maxCalls)
    (calls dropped : List ℚ) (τ now slack : ℚ)
    (hτ : τ ≤ now) (hsl : 0 ≤ slack)
    (hcle : ∀ c ∈ calls, c ≤ τ)
    (hlen : calls.length ≤ maxCalls)
    (hdr : ∀ c ∈ dropped, c ≤ τ - W)
    (hwin : ∀ t : ℚ, countWindow W t (dropped ++ calls) ≤ maxCalls) :
    ∃ calls' rec dropped',
      wait_if_needed W maxCalls calls now slack = some (calls', rec)
      ∧ now ≤ rec
      ∧ (∀ c ∈ calls', c ≤ rec)
      ∧ calls'.length ≤ maxCalls
      ∧ (∀ c ∈ dropped', c ≤ rec - W)
      ∧ (∀ t : ℚ, countWindow W t (dropped' ++ calls')
          = countWindow W t (dropped ++ calls) + countWindow W t [rec])
      ∧ (∀ t : ℚ, countWindow W t (dropped' ++ calls') ≤ maxCalls) := by
  have hsplit : calls.takeWhile (fun c => decide (c < now - W)) ++ rl_evict W now calls
      = calls := List.takeWhile_append_dropWhile _ _
  have htw : ∀ c ∈ calls.takeWhile (fun c => decide (c < now - W)), c < now - W := by
    intro c hc
    have := List.mem_takeWhile_imp hc
    simpa using this
  have hsub1 : ∀ c ∈ rl_evict W now calls, c ∈ calls := by
    intro c hc
    rw [← hsplit]
    exact List.mem_append_right _ hc
  have hlen1 : (rl_evict W now calls).length ≤ calls.length := by
    have hl := congrArg List.length hsplit
    rw [List.length_append] at hl
    omega
  unfold wait_if_needed wait_if_needed_core
  by_cases hb : maxCalls ≤ (rl_evict W now calls).length
  · rw [if_pos hb]
    cases hc1 : rl_evict W now calls with
    | nil =>
      rw [hc1] at hb
      simp at hb
      omega
    | cons h rest =>
      rw [hc1] at hb hlen1
      have hsub1' : ∀ c ∈ h :: rest, c ∈ calls := by
        intro c hc
        exact hsub1 c (hc1 ▸ hc)
      have hne : calls.dropWhile (fun c => decide (c < now - W)) ≠ [] := by
        have h1 : rl_evict W now calls ≠ [] := by rw [hc1]; simp
        exact h1
      have hhead := List.head_dropWhile_not (fun c => decide (c < now - W)) calls hne
      have hheq : (calls.dropWhile (fun c => decide (c < now - W))).head hne = h := by
        have h2 : calls.dropWhile (fun c => decide (c < now - W)) = h :: rest := hc1
        simp only [h2, List.head_cons]
      have hh_ge : now - W ≤ h := by
        rw [hheq] at hhead
        simp only [decide_eq_false_iff_not, not_lt] at hhead
        exact hhead
      have hhτ : h ≤ τ := hcle h (hsub1' h (List.mem_cons_self _ _))
      set t := now + (W - (now - h) + 1) + slack with htdef
      have htnow : now + 1 + slack ≤ t := by
        rw [htdef]; linarith
      have hp2h : (fun c => decide (W ≤ t - c)) h = true := by
        simp only [decide_eq_true_eq]
        rw [htdef]; linarith
      have hsplit2 : (h :: rest).takeWhile (fun c => decide (W ≤ t - c))
          ++ rl_evict2 W t (h :: rest) = h :: rest := List.takeWhile_append_dropWhile _ _
      have htw2 : ∀ c ∈ (h :: rest).takeWhile (fun c => decide (W ≤ t - c)), c ≤ t - W := by
        intro c hc
        have := List.mem_takeWhile_imp hc
        simp only [decide_eq_true_eq] at this
        linarith
      have hdw2sub : ∀ c ∈ rl_evict2 W t (h :: rest), c ∈ h :: rest := by
        intro c hc
        rw [← hsplit2]
        exact List.mem_append_right _ hc
      have hdw2len : (rl_evict2 W t (h :: rest)).length ≤ rest.length := by
        have hr : rl_evict2 W t (h :: rest) = rest.dropWhile (fun c => decide (W ≤ t - c)) := by
          unfold rl_evict2
          simp [List.dropWhile_cons, hp2h]
        have h3 : rest.takeWhile (fun c => decide (W ≤ t - c))
            ++ rest.dropWhile (fun c => decide (W ≤ t - c)) = rest :=
          List.takeWhile_append_dropWhile _ _
        have hl := congrArg List.length h3
        rw [List.length_append] at hl
        rw [hr]
        omega
      refine ⟨rl_evict2 W t (h :: rest) ++ [t], t,
        dropped ++ calls.takeWhile (fun c => decide (c < now - W))
          ++ (h :: rest).takeWhile (fun c => decide (W ≤ t - c)), rfl, by linarith, ?_, ?_, ?_, ?_, ?_⟩
      · intro c hc
        rcases List.mem_append.1 hc with h1 | h1
        · have := hcle c (hsub1' c (hdw2sub c h1))
          linarith
        · simp only [List.mem_singleton] at h1
          subst h1; linarith
      · rw [List.length_append, List.length_singleton]
        simp only [List.length_cons] at hlen1
        omega
      · intro c hc
        rcases List.mem_append.1 hc with h1 | h1
        · rcases List.mem_append.1 h1 with h2 | h2
          · have := hdr c h2; linarith
          · have := htw c h2; linarith
        · exact htw2 c h1
      · intro t'
        have e1 : countWindow W t' ((h :: rest).takeWhile (fun c => decide (W ≤ t - c)))
            + countWindow W t' (rl_evict2 W t (h :: rest)) = countWindow W t' (h :: rest) := by
          rw [← countWindow_append, hsplit2]
        have e2 : countWindow W t' (calls.takeWhile (fun c => decide (c < now - W)))
            + countWindow W t' (h :: rest) = countWindow W t' calls := by
          rw [← countWindow_append]
          rw [show calls.takeWhile (fun c => decide (c < now - W)) ++ (h :: rest) = calls from
            hc1 ▸ hsplit]
        simp only [countWindow_append]
        omega
      · intro t'
        by_cases hpred : t' - W < t ∧ t ≤ t'
        · have hz : countWindow W t' (dropped ++ calls.takeWhile (fun c => decide (c < now - W))
              ++ (h :: rest).takeWhile (fun c => decide (W ≤ t - c))) = 0 := by
            apply countWindow_eq_zero_of_le
            intro c hc
            rcases List.mem_append.1 hc with h1 | h1
            · rcases List.mem_append.1 h1 with h2 | h2
              · have := hdr c h2; linarith [hpred.2]
              · have := htw c h2; linarith [hpred.2]
            · have := htw2 c h1; linarith [hpred.2]
          rw [countWindow_append, hz]
          rw [countWindow_append]
          have hb1 := countWindow_le_length W t' (rl_evict2 W t (h :: rest))
          have hb2 := countWindow_le_length W t' [t]
          simp only [List.length_singleton] at hb2
          simp only [List.length_cons] at hlen1
          omega
        · have hz : countWindow W t' [t] = 0 := by
            apply List.countP_eq_zero.2
            intro c hc
            simp only [List.mem_singleton] at hc
            subst hc
            simpa using hpred
          have e1 : countWindow W t' ((h :: rest).takeWhile (fun c => decide (W ≤ t - c)))
              + countWindow W t' (rl_evict2 W t (h :: rest)) = countWindow W t' (h :: rest) := by
            rw [← countWindow_append, hsplit2]
          have e2 : countWindow W t' (calls.takeWhile (fun c => decide (c < now - W)))
              + countWindow W t' (h :: rest) = countWindow W t' calls := by
            rw [← countWindow_append]
            rw [show calls.takeWhile (fun c => decide (c < now - W)) ++ (h :: rest) = calls from
              hc1 ▸ hsplit]
          have hw := hwin t'
          simp only [countWindow_append] at hw ⊢
          omega
  · rw [if_neg hb]
    push_neg at hb
    refine ⟨rl_evict W now calls ++ [now], now,
      dropped ++ calls.takeWhile (fun c => decide (c < now - W)), rfl, le_refl now, ?_, ?_, ?_, ?_, ?_⟩
    · intro c hc
      rcases List.mem_append.1 hc with h1 | h1
      · have := hcle c (hsub1 c h1); linarith
      · simp only [List.mem_singleton] at h1
        subst h1; linarith
    · rw [List.length_append, List.length_singleton]
      omega
    · intro c hc
      rcases List.mem_append.1 hc with h1 | h1
      · have := hdr c h1; linarith
      · have := htw c h1; linarith
    · intro t'
      have e2 : countWindow W t' (calls.takeWhile (fun c => decide (c < now - W)))
          + countWindow W t' (rl_evict W now calls) = countWindow W t' calls := by
        rw [← countWindow_append, hsplit]
      simp only [countWindow_append]
      omega
    · intro t'
      by_cases hpred : t' - W < now ∧ now ≤ t'
      · have hz : countWindow W t'
            (dropped ++ calls.takeWhile (fun c => decide (c < now - W))) = 0 := by
          apply countWindow_eq_zero_of_le
          intro c hc
          rcases List.mem_append.1 hc with h1 | h1
          · have := hdr c h1; linarith [hpred.2]
          · have := htw c h1; linarith [hpred.2]
        rw [countWindow_append, hz]
        rw [countWindow_append]
        have hb1 := countWindow_le_length W t' (rl_evict W now calls)
        have hb2 := countWindow_le_length W t' [now]
        simp only [List.length_singleton] at hb2
        omega
      · have hz : countWindow W t' [now] = 0 := by
          apply List.countP_eq_zero.2
          intro c hc
          simp only [List.mem_singleton] at hc
          subst hc
          simpa using hpred
        have e2 : countWindow W t' (calls.takeWhile (fun c => decide (c < now - W)))
            + countWindow W t' (rl_evict W now calls) = countWindow W t' calls := by
          rw [← countWindow_append, hsplit]
        have hw := hwin t'
        simp only [countWindow_append] at hw ⊢
        omega

/-- Trace-level invariant for a sequence of acquires through one shared
limiter, carrying the multiset of already-evicted timestamps. -/
theorem run_wait_if_needed_spec (W : ℚ) (maxCalls : ℕ) (hmax : 1 ≤ maxCalls) :
    ∀ (steps : List (ℚ × ℚ)) (calls dropped : List ℚ) (τ : ℚ),
      (∀ s ∈ steps, 0 ≤ s.1 ∧ 0 ≤ s.2) →
      (∀ c ∈ calls, c ≤ τ) →
      calls.length ≤ maxCalls →
      (∀ c ∈ dropped, c ≤ τ - W) →
      (∀ t : ℚ, countWindow W t (dropped ++ calls) ≤ maxCalls) →
      ∃ callsF issued,
        run_wait_if_needed W maxCalls steps calls τ = some (callsF, issued)
        ∧ issued.length = steps.length
        ∧ ∀ t : ℚ, countWindow W t (dropped ++ calls ++ issued) ≤ maxCalls
  | [], calls, dropped, τ, _, _, _, _, hwin =>
    ⟨calls, [], rfl, rfl, by intro t; simpa using hwin t⟩
  | (delay, slack) :: steps, calls, dropped, τ, hsteps, hcle, hlen, hdr, hwin => by
    have hds : 0 ≤ delay ∧ 0 ≤ slack := hsteps (delay, slack) (List.mem_cons_self _ _)
    obtain ⟨calls', rec, dropped', heval, hrec, hcle', hlen', hdr', hcnt, hwin'⟩ :=
      wait_if_needed_spec W maxCalls hmax calls dropped τ (τ + delay) slack
        (by linarith [hds.1]) hds.2 hcle hlen hdr hwin
    obtain ⟨callsF, issued, hrun, hlenI, hwinF⟩ :=
      run_wait_if_needed_spec W maxCalls hmax steps calls' dropped' rec
        (fun s hs => hsteps s (List.mem_cons_of_mem _ hs)) hcle' hlen' hdr' hwin'
    refine ⟨callsF, rec :: issued, ?_, by simp [hlenI], ?_⟩
    · simp only [run_wait_if_needed, heval, hrun]
    · intro t
      have h1 := hwinF t
      have h2 := hcnt t
      rw [show rec :: issued = [rec] ++ issued from rfl]
      simp only [countWindow_append] at h1 h2 ⊢
      omega

/-- C2: for every sequence of `acquire()` calls through the rate limiter
(`wait_if_needed`), with a positive quota, no call fails (a caller that
would exceed the quota blocks — records a delayed timestamp after the
computed sleep — instead of raising), every acquire records exactly one
call, and the number of calls recorded within any trailing window of
`time_window` seconds never exceeds `max_calls`. -/
theorem c2_rate_ceiling (W : ℚ) (maxCalls : ℕ) (t0 : ℚ) (steps : List (ℚ × ℚ))
    (hmax : 1 ≤ maxCalls) (hsteps : ∀ s ∈ steps, 0 ≤ s.1 ∧ 0 ≤ s.2) :
    ∃ callsF issued,
      run_wait_if_needed W maxCalls steps [] t0 = some (callsF, issued)
      ∧ issued.length = steps.length
      ∧ ∀ t : ℚ, countWindow W t issued ≤ maxCalls := by
  obtain ⟨callsF, issued, hrun, hlen, hwin⟩ :=
    run_wait_if_needed_spec W maxCalls hmax steps [] [] t0 hsteps
      (by intro c hc; simp at hc) (by simp)
      (by intro c hc; simp at hc) (by intro t; simp [countWindow])
  exact ⟨callsF, issued, hrun, hlen, fun t => by simpa using hwin t⟩

/-- Witness for `c2_rate_ceiling`: two back-to-back acquires at `t = 0`
through a limiter with `max_calls = 1`, `time_window = 10`. -/
theorem c2_rate_ceiling_witness :
    ((1 : ℕ) ≤ 1 ∧ (∀ s ∈ [((0 : ℚ), (0 : ℚ)), (0, 0)], 0 ≤ s.1 ∧ 0 ≤ s.2))
    ∧ ∃ callsF issued,
        run_wait_if_needed 10 1 [((0 : ℚ), (0 : ℚ)), (0, 0)] [] 0 = some (callsF, issued)
        ∧ issued.length = ([((0 : ℚ), (0 : ℚ)), (0, 0)] : List (ℚ × ℚ)).length
        ∧ ∀ t : ℚ, countWindow 10 t issued ≤ 1 :=
  ⟨⟨le_refl 1, by decide⟩, c2_rate_ceiling 10 1 0 [(0, 0), (0, 0)] (le_refl 1) (by decide)⟩

/-- C5, counterexample: `TushareAPI.get_kline` performs no ban
classification — an error whose text contains the ban pattern `429` is
propagated as the original error, not wrapped in a `RateLimitError`,
refuting the claim for the `get_kline` path. -/
theorem c5_get_kline_no_classification :
    looks_like_ip_ban "HTTP 429 Too Many Requests" = true
    ∧ TushareAPI_get_kline 0 (.error "HTTP 429 Too Many Requests")
        = .error (.original "HTTP 429 Too Many Requests")
    ∧ .error (.original "HTTP 429 Too Many Requests")
        ≠ (Except.error (.rateLimitError "HTTP 429 Too Many Requests"
            "HTTP 429 Too Many Requests") : Except PyError (List (Option ℤ))) := by
  refine ⟨by decide, rfl, by simp⟩

/-- C5 (amended): in `_get_kline_tushare` every error raised by the
remote call is classified via `_looks_like_ip_ban`: if the error text
case-insensitively contains one of the fixed ban patterns, a
`RateLimitError` carrying the original cause is raised, otherwise the
original error is re-raised unchanged; `TushareAPI.get_kline`, however,
performs no classification and always propagates the original error
unchanged. -/
theorem c5_ban_classification (e : String) (today : ℤ) :
    (looks_like_ip_ban e = true →
      get_kline_tushare (.error e) = .error (.rateLimitError e e))
    ∧ (looks_like_ip_ban e = false →
      get_kline_tushare (.error e) = .error (.original e))
    ∧ TushareAPI_get_kline today (.error e) = .error (.original e) := by
  refine ⟨fun h => ?_, fun h => ?_, rfl⟩
  · simp [get_kline_tushare, h]
  · simp [get_kline_tushare, h]

/-- Witness for `c5_ban_classification` on a ban-pattern error text and
on a neutral error text. -/
theorem c5_ban_classification_witness :
    (looks_like_ip_ban "rate limit: too many requests" = true
      ∧ get_kline_tushare (.error "rate limit: too many requests")
          = .error (.rateLimitError "rate limit: too many requests"
              "rate limit: too many requests"))
    ∧ (looks_like_ip_ban "connection reset by peer" = false
      ∧ get_kline_tushare (.error "connection reset by peer")
          = .error (.original "connection reset by peer")) :=
  ⟨⟨by decide, (c5_ban_classification "rate limit: too many requests" 0).1 (by decide)⟩,
   ⟨by decide, (c5_ban_classification "connection reset by peer" 0).2.1 (by decide)⟩⟩

/-- The retry loop makes at most `fuel` attempts. -/
theorem fetch_one_go_attempts (today : ℤ) (env : ℕ → AttemptEnv) :
    ∀ fuel i, (fetch_one_go today env fuel i).attemptsMade ≤ fuel
  | 0, _ => le_refl 0
  | fuel + 1, i => by
    simp only [fetch_one_go]
    cases h : attempt_body today (env i) with
    | ok o =>
      cases o with
      | none => simp
      | some n => simp
    | error msg =>
      simp only
      have := fetch_one_go_attempts today env fuel (i + 1)
      omega

/-- Every recorded sleep belongs to a failed attempt and is the
cooldown (on a ban classification) or the linear backoff (otherwise). -/
theorem fetch_one_go_sleeps (today : ℤ) (env : ℕ → AttemptEnv) :
    ∀ fuel i k s, (fetch_one_go today env fuel i).sleeps[k]? = some s →
      ∃ msg, attempt_body today (env (i + k)) = .error msg
        ∧ s = (if looks_like_ip_ban msg then cool_sleep_secs 600 (env (i + k)).jitter
               else 15 * ((i : ℤ) + (k : ℤ)))
  | 0, i, k, s => by
    intro h
    simp [fetch_one_go] at h
  | fuel + 1, i, k, s => by
    intro hk
    simp only [fetch_one_go] at hk
    cases h : attempt_body today (env i) with
    | ok o =>
      rw [h] at hk
      cases o with
      | none => simp at hk
      | some n => simp at hk
    | error msg =>
      rw [h] at hk
      simp only at hk
      cases k with
      | zero =>
        simp only [List.getElem?_cons_zero, Option.some_inj] at hk
        refine ⟨msg, by simpa using h, ?_⟩
        subst hk
        simp
      | succ k' =>
        simp only [List.getElem?_cons_succ] at hk
        obtain ⟨msg', hm, hs⟩ := fetch_one_go_sleeps today env fuel (i + 1) k' s hk
        refine ⟨msg', ?_, ?_⟩
        · rw [show i + (k' + 1) = i + 1 + k' from by omega]
          exact hm
        · rw [show i + (k' + 1) = i + 1 + k' from by omega]
          rw [hs]
          push_cast
          ring_nf

/-- If every attempt in the remaining budget fails, the loop consumes
the whole budget and ends in the logged-and-skipped branch. -/
theorem fetch_one_go_all_fail (today : ℤ) (env : ℕ → AttemptEnv) :
    ∀ fuel i, (∀ j, i ≤ j → j < i + fuel → ∃ m, attempt_body today (env j) = .error m) →
      (fetch_one_go today env fuel i).attemptsMade = fuel
      ∧ (fetch_one_go today env fuel i).outcome = .skippedAfter3
  | 0, i, _ => ⟨rfl, rfl⟩
  | fuel + 1, i, hall => by
    obtain ⟨m, hm⟩ := hall i (le_refl i) (by omega)
    simp only [fetch_one_go, hm]
    have := fetch_one_go_all_fail today env fuel (i + 1)
      (fun j h1 h2 => hall j (by omega) (by omega))
    exact ⟨by simp [this.1], by simp [this.2]⟩

/-- For a jitter draw in `uniform(0.9, 1.2)`, the cooldown around the
600-second default lies in `[540, 720]` seconds. -/
theorem cool_sleep_secs_bounds {j : ℚ} (h1 : 9/10 ≤ j) (h2 : j ≤ 12/10) :
    540 ≤ cool_sleep_secs 600 j ∧ cool_sleep_secs 600 j ≤ 720 := by
  unfold cool_sleep_secs
  push_cast
  have hf1 : (540 : ℤ) ≤ ⌊(600 : ℚ) * j⌋ := by
    apply Int.le_floor.2
    push_cast
    linarith
  have hf2 : ⌊(600 : ℚ) * j⌋ ≤ 720 := by
    have hle : (600 : ℚ) * j ≤ 720 := by linarith
    calc ⌊(600 : ℚ) * j⌋ ≤ ⌊(720 : ℚ)⌋ := Int.floor_le_floor hle
      _ = 720 := by norm_num
  omega

/-- C6: for every security and range, `fetch_one_to_mysql` makes at
most 3 total attempts (ban-classified failures consume the same budget:
the bound holds whatever the failures are classified as); each failed
attempt `k + 1` sleeps the jittered fixed cooldown — `max(1, int(600 *
uniform(0.9, 1.2)))`, hence between 540 and 720 seconds — when the
error text matches a ban pattern, and exactly `15 * attemptNumber`
seconds otherwise; and when all three attempts fail, the function
consumes the full budget and ends in the logged-and-skipped outcome,
raising nothing to the caller (its result type has no error case —
every exception is caught by the loop). -/
theorem c6_retry_policy (today : ℤ) (env : ℕ → AttemptEnv)
    (hj : ∀ i, (9 : ℚ)/10 ≤ (env i).jitter ∧ (env i).jitter ≤ 12/10) :
    (fetch_one_to_mysql today env).attemptsMade ≤ 3
    ∧ (∀ k s, (fetch_one_to_mysql today env).sleeps[k]? = some s →
        ∃ msg, attempt_body today (env (k + 1)) = .error msg
          ∧ ((looks_like_ip_ban msg = true ∧ 540 ≤ s ∧ s ≤ 720)
            ∨ (looks_like_ip_ban msg = false ∧ s = 15 * ((k : ℤ) + 1))))
    ∧ ((∀ j, 1 ≤ j → j ≤ 3 → ∃ m, attempt_body today (env j) = .error m) →
        (fetch_one_to_mysql today env).attemptsMade = 3
        ∧ (fetch_one_to_mysql today env).outcome = .skippedAfter3) := by
  refine ⟨fetch_one_go_attempts today env 3 1, ?_, ?_⟩
  · intro k s hk
    obtain ⟨msg, hm, hs⟩ := fetch_one_go_sleeps today env 3 1 k s hk
    rw [show 1 + k = k + 1 from by omega] at hm hs
    refine ⟨msg, hm, ?_⟩
    by_cases hb : looks_like_ip_ban msg
    · rw [if_pos hb] at hs
      obtain ⟨hlo, hhi⟩ := cool_sleep_secs_bounds (hj (k + 1)).1 (hj (k + 1)).2
      exact Or.inl ⟨hb, by omega, by omega⟩
    · rw [if_neg hb] at hs
      refine Or.inr ⟨by simpa using hb, ?_⟩
      rw [hs]
      push_cast
      ring
  · intro hall
    exact fetch_one_go_all_fail today env 3 1
      (fun j h1 h2 => hall j h1 (by omega))

/-- Witness for `c6_retry_policy`: an environment whose every attempt
fails with a ban-pattern error and jitter 1. -/
theorem c6_retry_policy_witness :
    (∀ _i : ℕ, (9 : ℚ)/10 ≤ (AttemptEnv.mk (.error "429") true none 1).jitter
      ∧ (AttemptEnv.mk (.error "429") true none 1).jitter ≤ 12/10)
    ∧ ((fetch_one_to_mysql 0 (fun _ => AttemptEnv.mk (.error "429") true none 1)).attemptsMade ≤ 3
    ∧ (∀ k s,
        (fetch_one_to_mysql 0 (fun _ => AttemptEnv.mk (.error "429") true none 1)).sleeps[k]?
          = some s →
        ∃ msg, attempt_body 0 ((fun _ : ℕ => AttemptEnv.mk (.error "429") true none 1) (k + 1))
            = .error msg
          ∧ ((looks_like_ip_ban msg = true ∧ 540 ≤ s ∧ s ≤ 720)
            ∨ (looks_like_ip_ban msg = false ∧ s = 15 * ((k : ℤ) + 1))))
    ∧ ((∀ j, 1 ≤ j → j ≤ 3 →
          ∃ m, attempt_body 0 ((fun _ : ℕ => AttemptEnv.mk (.error "429") true none 1) j)
            = .error m) →
        (fetch_one_to_mysql 0 (fun _ => AttemptEnv.mk (.error "429") true none 1)).attemptsMade = 3
        ∧ (fetch_one_to_mysql 0
            (fun _ => AttemptEnv.mk (.error "429") true none 1)).outcome = .skippedAfter3)) :=
  ⟨fun _ => ⟨by norm_num, by norm_num⟩,
   c6_retry_policy 0 (fun _ => AttemptEnv.mk (.error "429") true none 1)
     (fun _ => ⟨by norm_num, by norm_num⟩)⟩

/-- C7, counterexample: in the `TushareAPI.get_kline` path an empty
fetch result is not a success — `validate` raises
`ValueError("数据为空！")`, so the claim that an empty result never
raises an error fails on this path. -/
theorem c7_empty_counterexample :
    TushareAPI_get_kline 0 (.ok []) = .error (.valueError "数据为空！") := rfl

/-- C7 (amended): in the `fetch_one_to_mysql` worker an empty fetch
result is treated as a success with zero rows — the range finishes
immediately (one attempt, no sleep, nothing persisted) with no error
raised; but `TushareAPI.validate` raises `ValueError("数据为空！")` on
an empty frame, so the `KlineIngestor` path treats an empty result as
an error instead. -/
theorem c7_empty_result (today : ℤ) (env : ℕ → AttemptEnv)
    (hempty : (env 1).fetch = .ok []) :
    fetch_one_to_mysql today env = ⟨1, [], .doneEmpty⟩
    ∧ (∀ t : ℤ, tushare_validate t [] = .error (.valueError "数据为空！")) := by
  constructor
  · have hbody : attempt_body today (env 1) = .ok none := by
      unfold attempt_body
      rw [hempty]
      rfl
    simp [fetch_one_to_mysql, fetch_one_go, hbody]
  · intro t
    rfl

/-- Witness for `c7_empty_result` with a concrete environment whose
first fetch returns an empty frame. -/
theorem c7_empty_result_witness :
    ((fun _ : ℕ => AttemptEnv.mk (.ok []) true none 1) 1).fetch = .ok []
    ∧ (fetch_one_to_mysql 0 (fun _ => AttemptEnv.mk (.ok []) true none 1)
        = ⟨1, [], .doneEmpty⟩
    ∧ (∀ t : ℤ, tushare_validate t [] = .error (.valueError "数据为空！"))) :=
  ⟨rfl, c7_empty_result 0 (fun _ => AttemptEnv.mk (.ok []) true none 1) rfl⟩

theorem chunksAux_flatten {α : Type} (n : ℕ) (hn : 1 ≤ n) :
    ∀ (fuel : ℕ) (l : List α), l.length ≤ fuel → (chunksAux n fuel l).flatten = l
  | fuel, [], _ => by cases fuel <;> simp [chunksAux]
  | 0, x :: xs, h => by simp at h
  | fuel + 1, x :: xs, h => by
    have hlen : xs.length + 1 ≤ fuel + 1 := by simpa using h
    simp only [chunksAux, List.flatten_cons]
    rw [chunksAux_flatten n hn fuel ((x :: xs).drop n)
      (by simp only [List.length_drop, List.length_cons]; omega)]
    exact List.take_append_drop n (x :: xs)

theorem chunksOf_flatten {α : Type} (n : ℕ) (hn : 1 ≤ n) (l : List α) :
    (chunksOf n l).flatten = l := by
  unfold chunksOf
  rw [if_neg (by omega)]
  exact chunksAux_flatten n hn l.length l (le_refl _)

/-- A successful bulk upsert commits every batch. -/
theorem bulkUpsertBatches_ok (failsAt : ℕ → Bool) :
    ∀ (bs : List (List (String × ℤ))) (i : ℕ) (data : Finset (String × ℤ)),
      (bulkUpsertBatches failsAt i data bs).2 = true →
      (bulkUpsertBatches failsAt i data bs).1 = data ∪ bs.flatten.toFinset
  | [], i, data, _ => by simp [bulkUpsertBatches]
  | b :: rest, i, data, h => by
    by_cases hfail : failsAt i = true
    · simp only [bulkUpsertBatches, if_pos hfail] at h
      exact absurd h (by simp)
    · simp only [bulkUpsertBatches, if_neg hfail] at h ⊢
      rw [bulkUpsertBatches_ok failsAt rest (i + 1) (data ∪ b.toFinset) h]
      simp [Finset.union_assoc]

/-- If no batch fails, the bulk upsert succeeds and commits all rows. -/
theorem bulkUpsertBatches_no_fail (failsAt : ℕ → Bool) (hok : ∀ j, failsAt j = false) :
    ∀ (bs : List (List (String × ℤ))) (i : ℕ) (data : Finset (String × ℤ)),
      bulkUpsertBatches failsAt i data bs = (data ∪ bs.flatten.toFinset, true)
  | [], i, data => by simp [bulkUpsertBatches]
  | b :: rest, i, data => by
    have hni : ¬ failsAt i = true := by simp [hok i]
    simp only [bulkUpsertBatches, if_neg hni]
    rw [bulkUpsertBatches_no_fail failsAt hok rest (i + 1) (data ∪ b.toFinset)]
    simp [Finset.union_assoc]

/-- A failed bulk upsert committed exactly the full batches before the
first failing batch — never part of a batch. -/
theorem bulkUpsertBatches_fail (failsAt : ℕ → Bool) :
    ∀ (bs : List (List (String × ℤ))) (i : ℕ) (data : Finset (String × ℤ)),
      (bulkUpsertBatches failsAt i data bs).2 = false →
      ∃ k, k < bs.length ∧ failsAt (i + k) = true ∧ (∀ j < k, failsAt (i + j) = false)
        ∧ (bulkUpsertBatches failsAt i data bs).1
            = data ∪ ((bs.take k).flatten).toFinset
  | [], i, data, h => by simp [bulkUpsertBatches] at h
  | b :: rest, i, data, h => by
    by_cases hfail : failsAt i = true
    · refine ⟨0, by simp, by simpa using hfail, by omega, ?_⟩
      simp only [bulkUpsertBatches, if_pos hfail]
      simp
    · simp only [bulkUpsertBatches, if_neg hfail] at h ⊢
      obtain ⟨k, hk1, hk2, hk3, hk4⟩ :=
        bulkUpsertBatches_fail failsAt rest (i + 1) (data ∪ b.toFinset) h
      refine ⟨k + 1, by simpa using hk1, ?_, ?_, ?_⟩
      · rw [show i + (k + 1) = i + 1 + k from by omega]
        exact hk2
      · intro j hj
        cases j with
        | zero => simpa using hfail
        | succ j' =>
          rw [show i + (j' + 1) = i + 1 + j' from by omega]
          exact hk3 j' (by omega)
      · rw [hk4]
        simp [Finset.union_assoc]

/-- C3, counterexample: the recorded high-water mark can decrease.
With stocks.last_update_date = day 100 for code 000001, crawling an
earlier missing range whose rows end at day 50 succeeds and
unconditionally sets the mark to 50 < 100. -/
theorem c3_mark_regression_counterexample :
    (IngestState.mk ∅ (fun c => if c = "000001" then some (100 : ℤ) else none)).marks "000001"
      = some 100
    ∧ (crawl_code (.ok [50]) (fun _ => false) false "000001"
        (IngestState.mk ∅ (fun c => if c = "000001" then some (100 : ℤ) else none))).1.marks
          "000001" = some 50
    ∧ (50 : ℤ) < 100 :=
  ⟨rfl, by decide, by norm_num⟩

/-- C3 (amended): `stocks.last_update_date` is written only by a
`crawl_code` call whose bulk upsert fully succeeded (never on a fetch
error, an upsert failure, or when the mark update itself raises), no
other code's mark is touched, and when it is written it is SET — not
monotonically advanced — to the maximum date of the batch just
committed, after every row of that batch is durably in the store; it
can therefore regress when an earlier range is ingested after a later
one. -/
theorem c3_mark_update (fetch : Except Unit (List ℤ)) (failsAt : ℕ → Bool)
    (markFails : Bool) (code : String) (st : IngestState) :
    ((crawl_code fetch failsAt markFails code st).2 = .error () →
      (crawl_code fetch failsAt markFails code st).1.marks = st.marks)
    ∧ (∀ c, c ≠ code → (crawl_code fetch failsAt markFails code st).1.marks c = st.marks c)
    ∧ ((crawl_code fetch failsAt markFails code st).1.marks ≠ st.marks →
        ∃ dates, fetch = .ok dates ∧ dates ≠ [] ∧ markFails = false
          ∧ (crawl_code fetch failsAt markFails code st).1.marks code
              = some (list_max dates)
          ∧ (∀ d ∈ dates, (code, d) ∈ (crawl_code fetch failsAt markFails code st).1.data)
          ∧ (crawl_code fetch failsAt markFails code st).2 = .ok dates.length) := by
  cases fetch with
  | error e =>
    exact ⟨fun _ => rfl, fun c _ => rfl, fun hne => absurd rfl hne⟩
  | ok dates =>
    by_cases hd : dates = []
    · subst hd
      refine ⟨fun h => by simp [crawl_code] at h, fun c _ => rfl, fun hne => absurd rfl hne⟩
    · rcases hres : bulk_upsert_from_dicts failsAt 1000 st.data
        (dates.map (fun d => (code, d))) with ⟨data', s⟩
      have hcc : crawl_code (.ok dates) failsAt markFails code st
          = match (data', s) with
            | (data', false) => (⟨data', st.marks⟩, .error ())
            | (data', true) =>
              (⟨data', if markFails then st.marks
                       else update_last_date_for_code st.marks code (list_max dates)⟩,
               .ok (dates.map (fun d => (code, d))).length) := by
        simp only [crawl_code, if_neg hd, hres]
      cases s with
      | false =>
        simp only at hcc
        rw [hcc]
        exact ⟨fun _ => rfl, fun c _ => rfl, fun hne => absurd rfl hne⟩
      | true =>
        simp only at hcc
        rw [hcc]
        have hdata : data' = st.data ∪ (dates.map (fun d => (code, d))).toFinset := by
          have h2 : (bulk_upsert_from_dicts failsAt 1000 st.data
              (dates.map (fun d => (code, d)))).2 = true := by rw [hres]
          have h1 := bulkUpsertBatches_ok failsAt
            (chunksOf 1000 (dates.map (fun d => (code, d)))) 0 st.data h2
          rw [chunksOf_flatten 1000 (by omega)] at h1
          have : (bulk_upsert_from_dicts failsAt 1000 st.data
              (dates.map (fun d => (code, d)))).1 = data' := by rw [hres]
          rw [← this]
          exact h1
        refine ⟨fun h => by simp at h, ?_, ?_⟩
        · intro c hc
          cases markFails with
          | true => rfl
          | false =>
            simp only [Bool.false_eq_true, if_neg]
            unfold update_last_date_for_code
            simp [hc]
        · intro hne
          refine ⟨dates, rfl, hd, ?_, ?_, ?_, by simp⟩
          · cases markFails with
            | true => exact absurd rfl hne
            | false => rfl
          · cases markFails with
            | true => exact absurd rfl hne
            | false =>
              simp only [Bool.false_eq_true, if_neg]
              unfold update_last_date_for_code
              simp
          · intro d hdm
            simp only [hdata, Finset.mem_union, List.mem_toFinset, List.mem_map]
            exact Or.inr ⟨d, hdm, rfl⟩

/-- Witness for `c3_mark_update`: a failed fetch leaves all marks
unchanged, and a successful crawl of code 000001 leaves other codes'
marks unchanged. -/
theorem c3_mark_update_witness :
    (crawl_code (.error ()) (fun _ => false) false "000001"
        (IngestState.mk ∅ (fun _ => none))).1.marks
      = (IngestState.mk ∅ (fun _ => (none : Option ℤ))).marks
    ∧ (crawl_code (.ok [50]) (fun _ => false) false "000001"
        (IngestState.mk ∅ (fun _ => none))).1.marks "999999"
      = (IngestState.mk ∅ (fun _ => (none : Option ℤ))).marks "999999" :=
  ⟨(c3_mark_update (.error ()) (fun _ => false) false "000001"
      (IngestState.mk ∅ (fun _ => none))).1 rfl,
   (c3_mark_update (.ok [50]) (fun _ => false) false "000001"
      (IngestState.mk ∅ (fun _ => none))).2.1 "999999" (by decide)⟩

/-- A crawl that reports an exception never changed the marks table. -/
theorem crawl_code_error_marks (fetch : Except Unit (List ℤ)) (failsAt : ℕ → Bool)
    (markFails : Bool) (code : String) (st : IngestState)
    (h : (crawl_code fetch failsAt markFails code st).2 = .error ()) :
    (crawl_code fetch failsAt markFails code st).1.marks = st.marks := by
  cases fetch with
  | error e => rfl
  | ok dates =>
    by_cases hd : dates = []
    · subst hd
      simp [crawl_code] at h
    · rcases hres : bulk_upsert_from_dicts failsAt 1000 st.data
        (dates.map (fun d => (code, d))) with ⟨data', s⟩
      cases s with
      | false => simp only [crawl_code, if_neg hd, hres]
      | true =>
        simp only [crawl_code, if_neg hd, hres] at h
        exact absurd h (by simp)

/-- C4, counterexample: the store can end in a partial state — here the
range's rows are fully committed and the call reports full success, yet
the high-water mark was never advanced (its update raised and was
swallowed), refuting "either the range's rows are fully committed and
the mark advanced, or neither happened". -/
theorem c4_partial_state_counterexample :
    (crawl_code (.ok [5]) (fun _ => false) true "000001"
        (IngestState.mk ∅ (fun _ => none))).2 = .ok 1
    ∧ ("000001", (5 : ℤ)) ∈ (crawl_code (.ok [5]) (fun _ => false) true "000001"
        (IngestState.mk ∅ (fun _ => none))).1.data
    ∧ (crawl_code (.ok [5]) (fun _ => false) true "000001"
        (IngestState.mk ∅ (fun _ => none))).1.marks "000001" = none :=
  ⟨rfl, by decide, rfl⟩

/-- C4 (amended): a bulk upsert is atomic per batch — on success all
rows are committed; on failure exactly the full batches before the
first failing batch are committed, never part of a batch — and a crawl
whose upsert (or fetch) raised never advances the mark.  However (see
the counterexample) a fully committed range whose mark update failed is
reachable, and a multi-batch call's earlier batches stay committed when
a later batch fails. -/
theorem c4_batch_atomicity (failsAt : ℕ → Bool) (batchSize : ℕ) (hn : 1 ≤ batchSize)
    (data : Finset (String × ℤ)) (rows : List (String × ℤ))
    (fetch : Except Unit (List ℤ)) (markFails : Bool) (code : String) (st : IngestState) :
    ((bulk_upsert_from_dicts failsAt batchSize data rows).2 = true →
      (bulk_upsert_from_dicts failsAt batchSize data rows).1 = data ∪ rows.toFinset)
    ∧ ((bulk_upsert_from_dicts failsAt batchSize data rows).2 = false →
      ∃ k, failsAt k = true ∧ (∀ j < k, failsAt j = false)
        ∧ (bulk_upsert_from_dicts failsAt batchSize data rows).1
            = data ∪ (((chunksOf batchSize rows).take k).flatten).toFinset)
    ∧ ((crawl_code fetch failsAt markFails code st).2 = .error () →
        (crawl_code fetch failsAt markFails code st).1.marks = st.marks) := by
  refine ⟨?_, ?_, crawl_code_error_marks fetch failsAt markFails code st⟩
  · intro h
    have h1 := bulkUpsertBatches_ok failsAt (chunksOf batchSize rows) 0 data h
    rw [chunksOf_flatten batchSize hn] at h1
    exact h1
  · intro h
    obtain ⟨k, _, hk2, hk3, hk4⟩ :=
      bulkUpsertBatches_fail failsAt (chunksOf batchSize rows) 0 data h
    exact ⟨k, by simpa using hk2, fun j hj => by simpa using hk3 j hj, hk4⟩

/-- Witness for `c4_batch_atomicity`: batch size 2 over three rows with
the second batch failing — the first batch is committed whole, the
failing batch not at all; and a crawl with a failing upsert leaves the
marks unchanged. -/
theorem c4_batch_atomicity_witness :
    (1 ≤ 2)
    ∧ ((bulk_upsert_from_dicts (fun i => decide (i = 1)) 2 ∅
        [("000001", (1 : ℤ)), ("000001", 2), ("000001", 3)]).2 = false
    ∧ ∃ k, (fun i => decide (i = 1)) k = true ∧ (∀ j < k, (fun i => decide (i = 1)) j = false)
        ∧ (bulk_upsert_from_dicts (fun i => decide (i = 1)) 2 ∅
            [("000001", (1 : ℤ)), ("000001", 2), ("000001", 3)]).1
          = ∅ ∪ (((chunksOf 2 [("000001", (1 : ℤ)), ("000001", 2), ("000001", 3)]).take k).flatten).toFinset)
    ∧ ((crawl_code (.ok [5]) (fun _ => true) false "000001"
          (IngestState.mk ∅ (fun _ => none))).2 = .error ()
    ∧ (crawl_code (.ok [5]) (fun _ => true) false "000001"
          (IngestState.mk ∅ (fun _ => none))).1.marks
        = (IngestState.mk ∅ (fun _ => (none : Option ℤ))).marks) :=
  ⟨by norm_num,
   ⟨by decide,
    (c4_batch_atomicity (fun i => decide (i = 1)) 2 (by norm_num) ∅
      [("000001", (1 : ℤ)), ("000001", 2), ("000001", 3)]
      (.ok [5]) false "000001" (IngestState.mk ∅ (fun _ => none))).2.1 (by decide)⟩,
   ⟨rfl,
    (c4_batch_atomicity (fun _ => true) 2 (by norm_num) ∅ []
      (.ok [5]) false "000001" (IngestState.mk ∅ (fun _ => none))).2.2 rfl⟩⟩

/-- C10: when the bulk upsert succeeds but the update of
`stocks.last_update_date` raises, `crawl_code` swallows the exception
(only logging it) and still returns the full persisted row count — so a
state in which the range's rows are durably committed but the
high-water mark was not advanced is reachable, and the caller receives
exactly the value a fully successful call returns. -/
theorem c10_swallowed_mark_update_failure (st : IngestState) (code : String)
    (dates : List ℤ) (failsAt : ℕ → Bool) (hnd : dates ≠ []) (hok : ∀ i, failsAt i = false) :
    (crawl_code (.ok dates) failsAt true code st).2 = .ok dates.length
    ∧ (crawl_code (.ok dates) failsAt true code st).1.marks = st.marks
    ∧ (∀ d ∈ dates, (code, d) ∈ (crawl_code (.ok dates) failsAt true code st).1.data)
    ∧ (crawl_code (.ok dates) failsAt true code st).2
        = (crawl_code (.ok dates) failsAt false code st).2 := by
  have hbulk : bulk_upsert_from_dicts failsAt 1000 st.data (dates.map (fun d => (code, d)))
      = (st.data ∪ (dates.map (fun d => (code, d))).toFinset, true) := by
    unfold bulk_upsert_from_dicts
    rw [bulkUpsertBatches_no_fail failsAt hok _ 0 st.data,
      chunksOf_flatten 1000 (by omega)]
  refine ⟨?_, ?_, ?_, ?_⟩
  · simp [crawl_code, if_neg hnd, hbulk]
  · simp [crawl_code, if_neg hnd, hbulk]
  · intro d hd
    simp only [crawl_code, if_neg hnd, hbulk, Finset.mem_union, List.mem_toFinset,
      List.mem_map]
    exact Or.inr ⟨d, hd, rfl⟩
  · simp [crawl_code, if_neg hnd, hbulk]

/-- Witness for `c10_swallowed_mark_update_failure` on one row at day
50 for code 000001. -/
theorem c10_swallowed_mark_update_failure_witness :
    (([50] : List ℤ) ≠ [] ∧ ∀ i : ℕ, (fun _ : ℕ => false) i = false)
    ∧ ((crawl_code (.ok [50]) (fun _ => false) true "000001"
          (IngestState.mk ∅ (fun _ => none))).2 = .ok ([50] : List ℤ).length
    ∧ (crawl_code (.ok [50]) (fun _ => false) true "000001"
          (IngestState.mk ∅ (fun _ => none))).1.marks
        = (IngestState.mk ∅ (fun _ => (none : Option ℤ))).marks
    ∧ (∀ d ∈ ([50] : List ℤ), ("000001", d) ∈ (crawl_code (.ok [50]) (fun _ => false) true
          "000001" (IngestState.mk ∅ (fun _ => none))).1.data)
    ∧ (crawl_code (.ok [50]) (fun _ => false) true "000001"
          (IngestState.mk ∅ (fun _ => none))).2
        = (crawl_code (.ok [50]) (fun _ => false) false "000001"
          (IngestState.mk ∅ (fun _ => none))).2) :=
  ⟨⟨by decide, fun _ => rfl⟩,
   c10_swallowed_mark_update_failure (IngestState.mk ∅ (fun _ => none)) "000001" [50]
     (fun _ => false) (by decide) (fun _ => rfl)⟩

theorem storeKeys_storeUpdate (pk : PK) (r : Row) :
    ∀ s : Store, storeKeys (storeUpdate s pk r) = storeKeys s
  | [] => rfl
  | e :: t => by
    by_cases h : e.1 = pk
    · unfold storeUpdate
      rw [if_pos h]
      simp only [storeKeys, List.map_cons, h]
    · unfold storeUpdate
      rw [if_neg h]
      simp only [storeKeys, List.map_cons]
      rw [show (storeUpdate t pk r).map (·.1) = storeKeys (storeUpdate t pk r) from rfl,
        storeKeys_storeUpdate pk r t]
      rfl

theorem storeLookup_eq_none_iff (s : Store) (pk : PK) :
    storeLookup s pk = none ↔ pk ∉ storeKeys s := by
  unfold storeLookup storeKeys
  rw [Option.map_eq_none', List.find?_eq_none]
  constructor
  · intro h hmem
    obtain ⟨e, he, hfst⟩ := List.mem_map.1 hmem
    exact absurd (by simpa using hfst) (by simpa using h e he)
  · intro h e he
    simp only [decide_eq_true_eq]
    intro hc
    exact h (List.mem_map.2 ⟨e, he, hc⟩)

theorem storeLookup_isSome_of_mem {s : Store} {pk : PK} (h : pk ∈ storeKeys s) :
    ∃ r, storeLookup s pk = some r := by
  cases hl : storeLookup s pk with
  | none => exact absurd ((storeLookup_eq_none_iff s pk).1 hl) (by simpa using h)
  | some r => exact ⟨r, rfl⟩

theorem storeLookup_storeUpdate_self (pk : PK) (r : Row) :
    ∀ s : Store, pk ∈ storeKeys s →
      storeLookup (storeUpdate s pk r) pk = some r
  | [], h => by simp [storeKeys] at h
  | e :: t, h => by
    by_cases he : e.1 = pk
    · unfold storeUpdate
      rw [if_pos he]
      unfold storeLookup
      rw [List.find?_cons_of_pos _ (by simp)]
      rfl
    · unfold storeUpdate
      rw [if_neg he]
      have ht : pk ∈ storeKeys t := by
        simp only [storeKeys, List.map_cons, List.mem_cons] at h
        rcases h with h | h
        · exact absurd h.symm he
        · exact h
      unfold storeLookup
      rw [List.find?_cons_of_neg _ (by simpa using he)]
      exact storeLookup_storeUpdate_self pk r t ht

theorem storeLookup_storeUpdate_ne (pk k : PK) (r : Row) (hne : k ≠ pk) :
    ∀ s : Store, storeLookup (storeUpdate s pk r) k = storeLookup s k
  | [] => rfl
  | e :: t => by
    by_cases he : e.1 = pk
    · unfold storeUpdate
      rw [if_pos he]
      unfold storeLookup
      rw [List.find?_cons_of_neg _ (by simp [Ne.symm hne]),
        List.find?_cons_of_neg _ (by simp [he, Ne.symm hne])]
    · unfold storeUpdate
      rw [if_neg he]
      by_cases hek : e.1 = k
      · unfold storeLookup
        rw [List.find?_cons_of_pos _ (by simp [hek]),
          List.find?_cons_of_pos _ (by simp [hek])]
      · unfold storeLookup
        rw [List.find?_cons_of_neg _ (by simp [hek]),
          List.find?_cons_of_neg _ (by simp [hek])]
        exact storeLookup_storeUpdate_ne pk k r hne t

theorem find?_append_of_none {α : Type} (p : α → Bool) :
    ∀ (l1 l2 : List α), List.find? p l1 = none →
      List.find? p (l1 ++ l2) = List.find? p l2
  | [], l2, _ => rfl
  | a :: l1, l2, h => by
    by_cases ha : p a
    · rw [List.find?_cons_of_pos _ ha] at h
      exact absurd h (by simp)
    · rw [List.find?_cons_of_neg _ ha] at h
      rw [List.cons_append, List.find?_cons_of_neg _ ha]
      exact find?_append_of_none p l1 l2 h

/-- After an upsert, looking up the upserted key yields the fresh or
updated row, built by setting the dict's fields on the previous row (or
on a fresh object). -/
theorem storeLookup_upsert_self (s : Store) (d : Dict) :
    storeLookup (upsert_from_dict s d) (pk_from_dict d)
      = some (setFields ((storeLookup s (pk_from_dict d)).getD emptyRow) d) := by
  unfold upsert_from_dict
  cases hl : storeLookup s (pk_from_dict d) with
  | none =>
    have hn : List.find? (fun e => decide (e.1 = pk_from_dict d)) s = none := by
      unfold storeLookup at hl
      exact Option.map_eq_none'.1 hl
    unfold storeLookup
    rw [find?_append_of_none _ s _ hn, List.find?_cons_of_pos _ (by simp)]
    rfl
  | some obj =>
    have hmem : pk_from_dict d ∈ storeKeys s := by
      by_contra hc
      rw [(storeLookup_eq_none_iff s (pk_from_dict d)).2 hc] at hl
      exact absurd hl (by simp)
    rw [storeLookup_storeUpdate_self (pk_from_dict d) _ s hmem]
    rfl

theorem find?_append_of_some {α : Type} (p : α → Bool) :
    ∀ (l1 l2 : List α) (a : α), List.find? p l1 = some a →
      List.find? p (l1 ++ l2) = some a
  | [], _, a, h => by simp at h
  | x :: l1, l2, a, h => by
    by_cases hx : p x
    · rw [List.find?_cons_of_pos _ hx] at h
      rw [List.cons_append, List.find?_cons_of_pos _ hx]
      exact h
    · rw [List.find?_cons_of_neg _ hx] at h
      rw [List.cons_append, List.find?_cons_of_neg _ hx]
      exact find?_append_of_some p l1 l2 a h

/-- An upsert leaves every other key's row unchanged. -/
theorem storeLookup_upsert_ne (s : Store) (d : Dict) (k : PK)
    (hne : k ≠ pk_from_dict d) :
    storeLookup (upsert_from_dict s d) k = storeLookup s k := by
  unfold upsert_from_dict
  cases hl : storeLookup s (pk_from_dict d) with
  | none =>
    unfold storeLookup
    cases hf : List.find? (fun e => decide (e.1 = k)) s with
    | some e =>
      rw [find?_append_of_some _ s _ e hf]
    | none =>
      rw [find?_append_of_none _ s _ hf,
        List.find?_cons_of_neg _ (by simpa using Ne.symm hne)]
      rfl
  | some obj =>
    exact storeLookup_storeUpdate_ne (pk_from_dict d) k _ hne s

/-- Keys after an upsert: unchanged when the key is present, appended
otherwise. -/
theorem storeKeys_upsert (s : Store) (d : Dict) :
    (pk_from_dict d ∈ storeKeys s → storeKeys (upsert_from_dict s d) = storeKeys s)
    ∧ (pk_from_dict d ∉ storeKeys s →
        storeKeys (upsert_from_dict s d) = storeKeys s ++ [pk_from_dict d]) := by
  constructor
  · intro hmem
    obtain ⟨r, hr⟩ := storeLookup_isSome_of_mem hmem
    unfold upsert_from_dict
    rw [hr]
    exact storeKeys_storeUpdate _ _ s
  · intro hmem
    unfold upsert_from_dict
    rw [(storeLookup_eq_none_iff s _).2 hmem]
    unfold storeKeys
    simp

theorem storeKeys_upsert_nodup (s : Store) (d : Dict)
    (h : (storeKeys s).Nodup) : (storeKeys (upsert_from_dict s d)).Nodup := by
  by_cases hmem : pk_from_dict d ∈ storeKeys s
  · rw [(storeKeys_upsert s d).1 hmem]
    exact h
  · rw [(storeKeys_upsert s d).2 hmem]
    simp only [List.nodup_append, List.nodup_singleton]
    exact ⟨h, by simp, by simpa using hmem⟩

theorem storeKeys_upsert_mem_self (s : Store) (d : Dict) :
    pk_from_dict d ∈ storeKeys (upsert_from_dict s d) := by
  by_cases hmem : pk_from_dict d ∈ storeKeys s
  · rw [(storeKeys_upsert s d).1 hmem]
    exact hmem
  · rw [(storeKeys_upsert s d).2 hmem]
    simp

theorem storeKeys_upsert_mem_mono (s : Store) (d : Dict) (k : PK)
    (h : k ∈ storeKeys s) : k ∈ storeKeys (upsert_from_dict s d) := by
  by_cases hmem : pk_from_dict d ∈ storeKeys s
  · rw [(storeKeys_upsert s d).1 hmem]
    exact h
  · rw [(storeKeys_upsert s d).2 hmem]
    simp [h]

theorem storeLookup_upsert (s : Store) (d : Dict) (k : PK) :
    storeLookup (upsert_from_dict s d) k = upsert_effect k (storeLookup s k) d := by
  unfold upsert_effect
  by_cases hk : pk_from_dict d = k
  · subst hk
    rw [if_pos rfl]
    exact storeLookup_upsert_self s d
  · rw [if_neg hk]
    exact storeLookup_upsert_ne s d k (Ne.symm hk)

/-- Pointwise characterisation of a bulk upsert. -/
theorem storeLookup_bulk (k : PK) :
    ∀ (rows : List Dict) (s : Store),
      storeLookup (bulk_upsert_rows s rows) k
        = rows.foldl (upsert_effect k) (storeLookup s k)
  | [], s => rfl
  | d :: rows, s => by
    unfold bulk_upsert_rows
    simp only [List.foldl_cons]
    rw [show (rows.foldl upsert_from_dict (upsert_from_dict s d))
        = bulk_upsert_rows (upsert_from_dict s d) rows from rfl,
      storeLookup_bulk k rows (upsert_from_dict s d), storeLookup_upsert]

theorem storeKeys_bulk_nodup (rows : List Dict) :
    ∀ s : Store, (storeKeys s).Nodup → (storeKeys (bulk_upsert_rows s rows)).Nodup := by
  induction rows with
  | nil => exact fun s h => h
  | cons d rows ih =>
    intro s h
    exact ih (upsert_from_dict s d) (storeKeys_upsert_nodup s d h)

theorem storeKeys_bulk_mem_mono (rows : List Dict) :
    ∀ (s : Store) (k : PK), k ∈ storeKeys s → k ∈ storeKeys (bulk_upsert_rows s rows) := by
  induction rows with
  | nil => exact fun s k h => h
  | cons d rows ih =>
    intro s k h
    exact ih (upsert_from_dict s d) k (storeKeys_upsert_mem_mono s d k h)

theorem storeKeys_bulk_mem_pks (rows : List Dict) :
    ∀ (s : Store) (d : Dict), d ∈ rows →
      pk_from_dict d ∈ storeKeys (bulk_upsert_rows s rows) := by
  induction rows with
  | nil => intro s d h; simp at h
  | cons d0 rows ih =>
    intro s d h
    rcases List.mem_cons.1 h with h | h
    · subst h
      exact storeKeys_bulk_mem_mono rows (upsert_from_dict s d) _
        (storeKeys_upsert_mem_self s d)
    · exact ih (upsert_from_dict s d0) d h

theorem storeKeys_bulk_eq (rows : List Dict) :
    ∀ s : Store, (∀ d ∈ rows, pk_from_dict d ∈ storeKeys s) →
      storeKeys (bulk_upsert_rows s rows) = storeKeys s := by
  induction rows with
  | nil => exact fun s _ => rfl
  | cons d rows ih =>
    intro s h
    have h0 : pk_from_dict d ∈ storeKeys s := h d (List.mem_cons_self _ _)
    have hkeys : storeKeys (upsert_from_dict s d) = storeKeys s := (storeKeys_upsert s d).1 h0
    unfold bulk_upsert_rows
    simp only [List.foldl_cons]
    rw [show rows.foldl upsert_from_dict (upsert_from_dict s d)
        = bulk_upsert_rows (upsert_from_dict s d) rows from rfl]
    rw [ih (upsert_from_dict s d) (fun d' hd' => by rw [hkeys]; exact h d' (List.mem_cons_of_mem _ hd')), hkeys]

theorem setFields_char :
    ∀ (d : Dict) (r : Row) (k : String),
      setFields r d k
        = match dict_last_value d k with
          | some v => some v
          | none => r k
  | [], r, k => rfl
  | kv :: rest, r, k => by
    have hstep : setFields r (kv :: rest)
        = setFields (fun k' => if k' = kv.1 then some kv.2 else r k') rest := rfl
    rw [hstep, setFields_char rest _ k]
    cases hdlv : dict_last_value rest k with
    | some v =>
      have hcons : dict_last_value (kv :: rest) k = some v := by
        unfold dict_last_value
        rw [hdlv]
      rw [hcons]
    | none =>
      have hcons : dict_last_value (kv :: rest) k
          = if kv.1 = k then some kv.2 else none := by
        unfold dict_last_value
        rw [hdlv]
      rw [hcons]
      by_cases hkv : kv.1 = k
      · rw [if_pos hkv]
        show (if k = kv.1 then some kv.2 else r k) = some kv.2
        rw [if_pos hkv.symm]
      · rw [if_neg hkv]
        show (if k = kv.1 then some kv.2 else r k) = r k
        rw [if_neg (fun hc => hkv hc.symm)]

theorem setFields_idem (r : Row) (d : Dict) :
    setFields (setFields r d) d = setFields r d := by
  funext k
  rw [setFields_char d (setFields r d) k, setFields_char d r k]
  cases h : dict_last_value d k with
  | some v => rfl
  | none => rfl

theorem foldl_effect_no_match (k : PK) :
    ∀ (rows : List Dict) (a : Option Row), (∀ d ∈ rows, pk_from_dict d ≠ k) →
      rows.foldl (upsert_effect k) a = a
  | [], a, _ => rfl
  | d :: rest, a, h => by
    simp only [List.foldl_cons]
    rw [show upsert_effect k a d = a from by
      unfold upsert_effect
      rw [if_neg (h d (List.mem_cons_self _ _))]]
    exact foldl_effect_no_match k rest a (fun d' hd' => h d' (List.mem_cons_of_mem _ hd'))

theorem foldl_effect_idem (k : PK) :
    ∀ (rows : List Dict) (a : Option Row), (rows.map pk_from_dict).Nodup →
      rows.foldl (upsert_effect k) (rows.foldl (upsert_effect k) a)
        = rows.foldl (upsert_effect k) a
  | [], a, _ => rfl
  | d :: rest, a, hnd => by
    have hnd' : (rest.map pk_from_dict).Nodup := by
      simp only [List.map_cons, List.nodup_cons] at hnd
      exact hnd.2
    have hdn : pk_from_dict d ∉ rest.map pk_from_dict := by
      simp only [List.map_cons, List.nodup_cons] at hnd
      exact hnd.1
    by_cases hk : pk_from_dict d = k
    · have hrest : ∀ d' ∈ rest, pk_from_dict d' ≠ k := by
        intro d' hd' hc
        exact hdn (List.mem_map.2 ⟨d', hd', by rw [hc, ← hk]⟩)
      have hb : ∀ x : Option Row, (d :: rest).foldl (upsert_effect k) x
          = some (setFields (x.getD emptyRow) d) := by
        intro x
        simp only [List.foldl_cons]
        rw [show upsert_effect k x d = some (setFields (x.getD emptyRow) d) from by
          unfold upsert_effect
          rw [if_pos hk]]
        exact foldl_effect_no_match k rest _ hrest
      rw [hb a, hb (some (setFields (a.getD emptyRow) d))]
      simp only [Option.getD_some]
      rw [setFields_idem]
    · have hid : ∀ x : Option Row, upsert_effect k x d = x := by
        intro x
        unfold upsert_effect
        rw [if_neg hk]
      simp only [List.foldl_cons, hid]
      exact foldl_effect_idem k rest a hnd'

/-- Extensionality for duplicate-free tables: equal key sequences and
equal lookups force equal tables. -/
theorem store_ext :
    ∀ (s s' : Store), (storeKeys s).Nodup → (storeKeys s').Nodup →
      storeKeys s = storeKeys s' → (∀ k, storeLookup s k = storeLookup s' k) → s = s'
  | [], s', _, _, hk, _ => by
    cases s' with
    | nil => rfl
    | cons e t => simp [storeKeys] at hk
  | e :: t, s', hn, hn', hk, hl => by
    cases s' with
    | nil => simp [storeKeys] at hk
    | cons e' t' =>
      simp only [storeKeys, List.map_cons, List.cons.injEq] at hk
      obtain ⟨hfst, htl⟩ := hk
      have hle : storeLookup (e :: t) e.1 = some e.2 := by
        unfold storeLookup
        rw [List.find?_cons_of_pos _ (by simp)]
        rfl
      have hle' : storeLookup (e' :: t') e.1 = some e'.2 := by
        unfold storeLookup
        rw [List.find?_cons_of_pos _ (by simp [hfst])]
        rfl
      have hsnd : e.2 = e'.2 := by
        have h2 := (hl e.1).symm.trans hle
        rw [hle'] at h2
        exact (Option.some.inj h2).symm
      have hn1 : (storeKeys t).Nodup := by
        simp only [storeKeys, List.map_cons, List.nodup_cons] at hn
        exact hn.2
      have hn1' : (storeKeys t').Nodup := by
        simp only [storeKeys, List.map_cons, List.nodup_cons] at hn'
        exact hn'.2
      have hnm : e.1 ∉ storeKeys t := by
        simp only [storeKeys, List.map_cons, List.nodup_cons] at hn
        exact hn.1
      have hnm' : e.1 ∉ storeKeys t' := by
        have h2 : e'.1 ∉ storeKeys t' := by
          simp only [storeKeys, List.map_cons, List.nodup_cons] at hn'
          exact hn'.1
        rw [hfst]
        exact h2
      have htail : t = t' := by
        apply store_ext t t' hn1 hn1' htl
        intro k
        by_cases hke : k = e.1
        · subst hke
          rw [(storeLookup_eq_none_iff t e.1).2 hnm, (storeLookup_eq_none_iff t' e.1).2 hnm']
        · have h2 := hl k
          unfold storeLookup at h2 ⊢
          rw [List.find?_cons_of_neg _ (by simpa using fun hc => hke hc.symm),
            List.find?_cons_of_neg _ (by
              simp only [decide_eq_true_eq]
              exact fun hc => hke (hfst.trans hc).symm)] at h2
          exact h2
      have hee : e = e' := Prod.ext hfst hsnd
      rw [htail, hee]

/-- C9: for every store with duplicate-free primary keys and every
batch of row dicts with pairwise distinct `(code, date)` keys,
upserting the batch twice through `bulk_upsert_from_dicts` yields the
same stored state as upserting it once: the table never acquires
duplicate `(code, date)` rows, and after the second pass every row — in
every field — equals the row left by the first pass. -/
theorem c9_bulk_upsert_idempotent (s : Store) (rows : List Dict)
    (hs : (storeKeys s).Nodup) (hrows : (rows.map pk_from_dict).Nodup) :
    (storeKeys (bulk_upsert_rows s rows)).Nodup
    ∧ bulk_upsert_rows (bulk_upsert_rows s rows) rows = bulk_upsert_rows s rows := by
  have h1 : (storeKeys (bulk_upsert_rows s rows)).Nodup := storeKeys_bulk_nodup rows s hs
  refine ⟨h1, ?_⟩
  apply store_ext _ _ (storeKeys_bulk_nodup rows _ h1) h1
  · exact storeKeys_bulk_eq rows _ (fun d hd => storeKeys_bulk_mem_pks rows s d hd)
  · intro k
    rw [storeLookup_bulk k rows (bulk_upsert_rows s rows), storeLookup_bulk k rows s]
    exact foldl_effect_idem k rows _ hrows

/-- Witness for `c9_bulk_upsert_idempotent`: empty table, one row dict
for `(code, date) = (1, 5)`. -/
theorem c9_bulk_upsert_idempotent_witness :
    ((storeKeys ([] : Store)).Nodup
      ∧ (([[("code", (1 : ℤ)), ("date", 5), ("open", 7)]] : List Dict).map pk_from_dict).Nodup)
    ∧ ((storeKeys (bulk_upsert_rows [] [[("code", (1 : ℤ)), ("date", 5), ("open", 7)]])).Nodup
    ∧ bulk_upsert_rows (bulk_upsert_rows [] [[("code", (1 : ℤ)), ("date", 5), ("open", 7)]])
        [[("code", (1 : ℤ)), ("date", 5), ("open", 7)]]
      = bulk_upsert_rows [] [[("code", (1 : ℤ)), ("date", 5), ("open", 7)]]) :=
  ⟨⟨by decide, by decide⟩,
   c9_bulk_upsert_idempotent [] [[("code", (1 : ℤ)), ("date", 5), ("open", 7)]]
     (by decide) (by decide)⟩
